import Mathlib

/-!
Verification of the versioned artifact store and delta-generation engine of the
`sc-release-process-exploration` repository.

The TypeScript sources are shallowly embedded as executable Lean definitions:
  * `scripts/utils.ts`        : `semverStringToSemver`, `findLastRelease`
  * `scripts/compile.ts`      : the release-name validation of `compileForRelease`
  * `scripts/generate-delta.ts`: release enumeration, `compareAndGenerate`,
    `copySnapshotArtifacts`, `lookForContractArtifact`, and the
    backup/rollback directory transaction of `generateDelta`
  * the diff script (`generateDiffWithLatest`, `generateContractHashes`,
    `hashContract`, `formKey`, `parseKey`)

Filesystem trees, JS `Map`s and JSON records are represented by association
lists kept in insertion order; JS strings by `String`.  The SHA-256 digest of
`hashContract` is modelled by the exact character stream fed to the hash
(`hash.update` calls concatenated, as a `List Char`): two artifacts receive the
same digest exactly when they feed the same stream (collision freeness of
SHA-256 is assumed, as the specification does).
-/

namespace SCRelease

/-! ## Semver tags (`scripts/utils.ts`)

`semverStringToSemver` accepts exactly the strings matching the JS regex
`/^v\d+\.\d+\.\d+$/` and converts the three digit groups with `parseInt`. -/

structure Semver where
  major : Nat
  minor : Nat
  patch : Nat
deriving DecidableEq, Repr

/-- Split a character list on `'.'`, the model of `"1.2.3".split(".")`. -/
def splitDots : List Char → List (List Char)
  | [] => [[]]
  | '.' :: rest => [] :: splitDots rest
  | c :: rest =>
    match splitDots rest with
    | [] => [[c]]
    | g :: gs => (c :: g) :: gs

/-- One or more decimal digits, the JS `\d+` group. -/
def isDigitGroup (g : List Char) : Bool :=
  decide (g ≠ []) && g.all Char.isDigit

/-- The test `/^v\d+\.\d+\.\d+$/.test s` of `scripts/utils.ts`. -/
def isSemverTag (s : String) : Bool :=
  match s.data with
  | 'v' :: rest =>
    match splitDots rest with
    | [a, b, c] => isDigitGroup a && isDigitGroup b && isDigitGroup c
    | _ => false
  | _ => false

/-- JS `parseInt` on a decimal digit string. -/
def parseDigits (g : List Char) : Nat :=
  g.foldl (fun acc c => 10 * acc + (c.toNat - '0'.toNat)) 0

/-- The numeric value of a tag that passed the regex: drop the leading `v`,
split on `.`, `parseInt` each group (`s.slice(1).split(".").map(parseInt)`). -/
def semverOfTag (s : String) : Semver :=
  match s.data with
  | _ :: rest =>
    match splitDots rest with
    | [a, b, c] => ⟨parseDigits a, parseDigits b, parseDigits c⟩
    | _ => ⟨0, 0, 0⟩
  | _ => ⟨0, 0, 0⟩

/-- Model of `semverStringToSemver` (`scripts/utils.ts`): throws
`"Invalid semver string"` unless the tag matches the regex, then parses the
three dot-separated groups.  (The source's second `isNaN` guard can never
fire on a regex-matched tag and is therefore not modelled.) -/
def semverStringToSemver (s : String) : Except String Semver :=
  if isSemverTag s then Except.ok (semverOfTag s)
  else Except.error "Invalid semver string"

/-- Strict lexicographic order on `(major, minor, patch)`. -/
def Semver.lexLt (a b : Semver) : Prop :=
  a.major < b.major ∨
    (a.major = b.major ∧ (a.minor < b.minor ∨ (a.minor = b.minor ∧ a.patch < b.patch)))

instance (a b : Semver) : Decidable (a.lexLt b) :=
  inferInstanceAs (Decidable (a.major < b.major ∨
    (a.major = b.major ∧ (a.minor < b.minor ∨ (a.minor = b.minor ∧ a.patch < b.patch)))))

/-- Non-strict lexicographic order. -/
def Semver.lexLe (a b : Semver) : Prop := a = b ∨ a.lexLt b

instance (a b : Semver) : Decidable (a.lexLe b) :=
  inferInstanceAs (Decidable (a = b ∨ a.lexLt b))

/-! ## `findLastRelease` (`scripts/utils.ts` lines 303-338)

The source first throws `"Invalid release names"` if any entry fails the semver
regex.  On an empty array, `releases[0]` is `undefined` and
`semverStringToSemver` throws `"Invalid semver string"`.  The loop body is two
consecutive (non-`else`) `if` statements; the model reproduces that shape
exactly. -/

structure LastRelease where
  name : String
  semver : Semver
deriving DecidableEq, Repr

/-- The body of the `for` loop of `findLastRelease`, with `sv` the parsed
semver of `r`.  The two outer `if`s are sequential in the source: after the
first branch replaces `lastRelease`, the equality test of the second branch is
made against the replaced value. -/
def findLastStep (last : LastRelease) (r : String) (sv : Semver) : LastRelease :=
  let last1 := if sv.major > last.semver.major then ⟨r, sv⟩ else last
  if sv.major = last1.semver.major then
    let last2 := if sv.minor > last1.semver.minor then ⟨r, sv⟩ else last1
    if sv.minor = last2.semver.minor then
      if sv.patch > last2.semver.patch then ⟨r, sv⟩ else last2
    else last2
  else last1

/-- Fold of `findLastStep` over the tail of the release list; every name has
already passed the semver regex, so parsing cannot fail. -/
def findLastLoop (last : LastRelease) : List String → Except String LastRelease
  | [] => Except.ok last
  | r :: rest =>
    match semverStringToSemver r with
    | Except.error e => Except.error e
    | Except.ok sv => findLastLoop (findLastStep last r sv) rest

/-- Model of `findLastRelease` (`scripts/utils.ts`). -/
def findLastRelease (releases : List String) : Except String LastRelease :=
  if releases.any (fun r => !isSemverTag r) then
    Except.error "Invalid release names"
  else
    match releases with
    | [] => Except.error "Invalid semver string"
    | r0 :: rest =>
      match semverStringToSemver r0 with
      | Except.error e => Except.error e
      | Except.ok sv0 => findLastLoop ⟨r0, sv0⟩ rest

/-! ## Release committer validation (`scripts/compile.ts` lines 109-214)

`compileForRelease` first checks the candidate version against the semver
regex, then lists the `releases` directory, filters out the names `tmp`,
`generated-delta` and `snapshots`, and either installs the first release
(empty listing) or validates the existing names and the ordering against
`findLastRelease` before renaming `releases/tmp` to the release directory.
The hardhat compilation, changeset lookup and the filesystem rename itself are
external collaborators; the model covers the validation decision. -/

/-- The names filtered out of the `releases` directory listing
(`compile.ts` line 130 and `generate-delta.ts` line 53).  Note that
`generated-delta-old` is **not** in this list in the source. -/
def reservedDirNames : List String := ["tmp", "generated-delta", "snapshots"]

/-- The ordering test of `compile.ts` lines 175-182, exactly as written:
the candidate is rejected when the last release is strictly greater. -/
def newVersionNotAfterLast (lastSv nsv : Semver) : Bool :=
  (lastSv.major > nsv.major) ||
  (lastSv.major == nsv.major && lastSv.minor > nsv.minor) ||
  (lastSv.major == nsv.major && lastSv.minor == nsv.minor && lastSv.patch > nsv.patch)

/-- Outcome of the release-committer validation. -/
inductive CommitOutcome where
  /-- No previous release: `releases/tmp` is renamed to the first release. -/
  | firstRelease (name : String)
  /-- The candidate version fails the semver regex (`compile.ts` line 111). -/
  | invalidNewVersion (name : String)
  /-- Existing release names fail the semver regex (`compile.ts` line 160). -/
  | invalidReleaseNames (offenders : List String)
  /-- The candidate is "not after the last release" (`compile.ts` line 183). -/
  | notAfterLast (lastName : String)
  /-- Validation passed: `releases/tmp` is renamed to the new release. -/
  | proceedRename (name : String)
deriving DecidableEq, Repr

/-- The validation decision of `compileForRelease`, as a function of the
`releases` directory listing and the candidate version name. -/
def compileForReleaseValidation (dirListing : List String) (newReleaseVersion : String) :
    CommitOutcome :=
  if !isSemverTag newReleaseVersion then .invalidNewVersion newReleaseVersion
  else
    let previousReleases := dirListing.filter (fun r => !reservedDirNames.contains r)
    if previousReleases.isEmpty then .firstRelease newReleaseVersion
    else
      let invalidReleases := previousReleases.filter (fun r => !isSemverTag r)
      if !invalidReleases.isEmpty then .invalidReleaseNames invalidReleases
      else
        match findLastRelease previousReleases with
        | Except.error e => .invalidReleaseNames [e]
        | Except.ok lastRelease =>
          if newVersionNotAfterLast lastRelease.semver (semverOfTag newReleaseVersion) then
            .notAfterLast lastRelease.name
          else .proceedRename newReleaseVersion

/-! ## Hash engine (`hashContract`, diff script lines 221-233)

The diff script imports `BuildInfo`, `ContractInfo` and `toAsyncResult` from
`./utils`, which is `scripts/v2/utils.ts` (its `toAsyncResult` returns the
`ok`/`value` result shape the diff script destructures).  That module's
`ContractInfo` zod schema types each abi entry as an object with the single
required string field `name`; zod's default strip mode removes every
unrecognized key, so the parsed entries `hashContract` receives retain only
their names.  `hashContract` sorts the contract's parsed `abi` array in place
by `name` (JS `Array.prototype.sort` is stable; `localeCompare` is modelled as
a total order on names, with ties exactly on equal names), then feeds the
SHA-256 hash with `JSON.stringify` of each parsed abi item in sorted order,
followed by `evm.bytecode.object` and `metadata`.  The digest is modelled as
the exact character stream fed to the hash. -/

/-- One entry of the `abi` array, as parsed by the `ContractInfo` zod schema
of `scripts/v2/utils.ts`: the schema requires a string `name` and, parsing in
zod's default strip mode, removes every other key (`inputs`, `outputs`,
`stateMutability`, `type`, ...), so the parsed entry holds only the name. -/
structure AbiEntry where
  name : String
deriving DecidableEq, Repr

/-- Model of `JSON.stringify` of a zod-parsed abi item: the parsed object has
the single key `name`, so its serialization is the name-only JSON object. -/
def jsonStringifyAbiEntry (e : AbiEntry) : String :=
  "\x7b\"name\":\"" ++ e.name ++ "\"\x7d"

/-- Lexicographic comparison of character lists: the model of
`a.localeCompare(b) <= 0`.  `localeCompare` is modelled as a total order on
strings; what matters for the development is only that it is total,
transitive, and returns `0` exactly on identical names. -/
def charListLe : List Char → List Char → Bool
  | [], _ => true
  | _ :: _, [] => false
  | a :: as, b :: bs => if a = b then charListLe as bs else decide (a < b)

/-- Comparator of abi entries by `name`. -/
def nameLe (a b : AbiEntry) : Bool := charListLe a.name.data b.name.data

/-- Stable insertion: an element is placed before the first entry whose name
is not smaller, so entries with equal names keep their original relative
order, as JS's stable `sort` does. -/
def insertAbiEntry (e : AbiEntry) : List AbiEntry → List AbiEntry
  | [] => [e]
  | x :: xs => if nameLe e x then e :: x :: xs else x :: insertAbiEntry e xs

/-- Model of `contract.abi.sort((a, b) => a.name.localeCompare(b.name))`. -/
def sortAbiByName : List AbiEntry → List AbiEntry
  | [] => []
  | x :: xs => insertAbiEntry x (sortAbiByName xs)

/-- The fields of a contract artifact consumed by `hashContract`:
`abi`, `evm.bytecode.object` and `metadata`. -/
structure ContractInfo where
  abi : List AbiEntry
  bytecodeObject : String
  metadata : String
deriving DecidableEq, Repr

/-- Model of `hashContract`: the stream of characters fed to the SHA-256 digest — each
sorted abi item's JSON text, then the bytecode object, then the metadata.
Two contracts get the same digest exactly when they produce the same stream
(SHA-256 collision freeness assumed). -/
def hashContract (c : ContractInfo) : List Char :=
  ((sortAbiByName c.abi).map (fun e => (jsonStringifyAbiEntry e).data)).flatten
    ++ c.bytecodeObject.data ++ c.metadata.data

/-- Sortedness of the names, as a pairwise relation. -/
def NamesSorted (l : List AbiEntry) : Prop :=
  l.Pairwise (fun a b => nameLe a b = true)

/-! ## Release enumeration of `generateDelta` (`scripts/generate-delta.ts` lines 48-75)

The script lists `./releases`, filters out `tmp`, `generated-delta` and
`snapshots` (the same `reservedDirNames` list as `compile.ts`), errors when no
release remains, and errors listing the offenders when any remaining name
fails the semver regex. -/

/-- The enumeration and validation of release names at the start of
`generateDelta`. -/
def generateDeltaEnumeration (dirListing : List String) : Except String (List String) :=
  let previousReleases := dirListing.filter (fun r => !reservedDirNames.contains r)
  if previousReleases.isEmpty then
    Except.error "There are no releases to generate delta from."
  else
    let invalidReleases := previousReleases.filter (fun r => !isSemverTag r)
    if !invalidReleases.isEmpty then
      Except.error ("Invalid release names have been found. Invalid releases: " ++
        String.intercalate ", " invalidReleases)
    else Except.ok previousReleases

/-! ## Delta generation (`scripts/generate-delta.ts` lines 142-168, 240-441)

The delta store is the `generated-delta` directory: per contract name a folder
of `<release>.json` files (modelled as an association list of
`(releaseName, artifact)` pairs in creation order) plus one `build-infos`
entry per release.  `compareAndGenerate` walks a release's artifacts
(`lookForContractArtifact` order), creates a folder with the artifact for a
contract with no previous entries, and otherwise copies the artifact exactly
when it differs from the one stored under the semver-greatest previous
release: by `bytecode` when the current artifact is deployable
(`bytecode !== "0x"`), by stringified `abi` otherwise.  A release whose walk
created no folder and copied no artifact beyond the build info is *empty*
(`createdFiles.length === 1 && createdFolders.length === 0`) and aborts the
generation.  Duplicate contract names within one release are unsupported by
the source (its `@dev` note); file writes are modelled as
replace-if-present/append-otherwise. -/

/-- The fields of a per-contract hardhat artifact file used by
`compareAndGenerate`: the `bytecode` string (placeholder `"0x"` when the unit
is not deployable), the serialized `abi` (the model of
`JSON.stringify(json.abi)`), and the rest of the JSON content, which is
copied verbatim but never compared. -/
structure HardhatArtifact where
  bytecode : String
  abi : String
  rest : String
deriving DecidableEq, Repr

/-- The test `currentReleaseArtifactJson.bytecode !== "0x"`. -/
def isDeployable (a : HardhatArtifact) : Bool := a.bytecode != "0x"

/-- The dual comparison of `compareAndGenerate` lines 364-390, applied to the
stored artifact of the last release and the current one: `true` exactly when
a new delta entry is copied. -/
def artifactChanged (last current : HardhatArtifact) : Bool :=
  if isDeployable current then last.bytecode != current.bytecode
  else last.abi != current.abi

/-- A release's compiled artifacts: `(contractName, artifact)` pairs in
`lookForContractArtifact` order. -/
structure ReleaseArtifacts where
  name : String
  entries : List (String × HardhatArtifact)
deriving DecidableEq, Repr

/-- The `generated-delta` directory. -/
structure DeltaStore where
  contracts : List (String × List (String × HardhatArtifact))
  buildInfos : List String
deriving DecidableEq, Repr

/-- Read a named entry of a directory modelled as an association list. -/
def getAssoc {β : Type} (l : List (String × β)) (c : String) : Option β :=
  (l.find? (fun p => p.1 == c)).map Prod.snd

/-- Write a named entry of a directory modelled as an association list:
overwrite in place when present, append otherwise. -/
def setAssoc {β : Type} (l : List (String × β)) (c : String) (v : β) :
    List (String × β) :=
  if l.any (fun p => p.1 == c) then
    l.map (fun p => if p.1 == c then (c, v) else p)
  else l ++ [(c, v)]

/-- Model of `fs.readdir("./releases/generated-delta/contracts/<name>")`, as the stored
history of one contract. -/
def lookupContract (store : DeltaStore) (name : String) :
    Option (List (String × HardhatArtifact)) :=
  getAssoc store.contracts name

/-- Update (or create) one contract folder. -/
def setContract (store : DeltaStore) (name : String)
    (hist : List (String × HardhatArtifact)) : DeltaStore :=
  { store with contracts := setAssoc store.contracts name hist }

/-- Writing `<rel>.json` into a contract folder: overwrite if the file
exists, append otherwise. -/
def writeArtifactFile (hist : List (String × HardhatArtifact)) (rel : String)
    (a : HardhatArtifact) : List (String × HardhatArtifact) :=
  if hist.any (fun q => q.1 == rel) then
    hist.map (fun q => if q.1 == rel then (rel, a) else q)
  else hist ++ [(rel, a)]

/-- The loop body of `compareAndGenerate` over the release's artifact
entries, threading the store and the `createdFiles`/`createdFolders`
counters.  `findLastRelease` errors propagate; a missing stored artifact file
for the found last release is an `ENOENT` read error. -/
def compareAndGenerateEntries (relName : String) :
    List (String × HardhatArtifact) → DeltaStore → Nat → Nat →
      Except String (DeltaStore × Nat × Nat)
  | [], store, nFiles, nFolders => Except.ok (store, nFiles, nFolders)
  | (cname, art) :: rest, store, nFiles, nFolders =>
    let prev := (lookupContract store cname).getD []
    if prev.isEmpty then
      let store' := setContract store cname (writeArtifactFile [] relName art)
      compareAndGenerateEntries relName rest store' nFiles (nFolders + 1)
    else
      match findLastRelease (prev.map Prod.fst) with
      | Except.error e => Except.error e
      | Except.ok lastRelease =>
        match prev.find? (fun q => q.1 == lastRelease.name) with
        | none => Except.error "ENOENT"
        | some lastEntry =>
          if artifactChanged lastEntry.2 art then
            let store' := setContract store cname (writeArtifactFile prev relName art)
            compareAndGenerateEntries relName rest store' (nFiles + 1) nFolders
          else compareAndGenerateEntries relName rest store nFiles nFolders

/-- Model of `compareAndGenerate`: archive the build info (the first created file),
walk the artifacts, and report whether the release was empty. -/
def compareAndGenerate (rel : ReleaseArtifacts) (store : DeltaStore) :
    Except String (DeltaStore × Bool) :=
  let store0 : DeltaStore := { store with buildInfos := store.buildInfos ++ [rel.name] }
  match compareAndGenerateEntries rel.name rel.entries store0 1 0 with
  | Except.error e => Except.error e
  | Except.ok (store', nFiles, nFolders) =>
    Except.ok (store', nFiles == 1 && nFolders == 0)

/-- Model of `initGeneratedFiles`: archive the first release's build info and create
one folder per contract holding the first artifact. -/
def initGeneratedFiles (rel : ReleaseArtifacts) : DeltaStore :=
  rel.entries.foldl
    (fun acc p =>
      setContract acc p.1 (writeArtifactFile ((lookupContract acc p.1).getD []) rel.name p.2))
    { contracts := [], buildInfos := [rel.name] }

/-- The error thrown by `generateDelta` line 154 for an empty release. -/
def emptyReleaseError (name : String) : String :=
  "The release " ++ name ++ " looks empty. This is not authorized."

/-- The `for` loop of `generateDelta` lines 149-158 over the non-first
ordered releases: abort with the empty-release error whenever
`compareAndGenerate` reports `empty`. -/
def generateDeltaLoop : List ReleaseArtifacts → DeltaStore → Except String DeltaStore
  | [], store => Except.ok store
  | r :: rest, store =>
    match compareAndGenerate r store with
    | Except.error e => Except.error e
    | Except.ok (store', empty) =>
      if empty then Except.error (emptyReleaseError r.name)
      else generateDeltaLoop rest store'

/-- The ordered phase of `generateDelta`: initialize from the first (oldest)
release, then run the loop over the remaining ones. -/
def generateDeltaOrdered : List ReleaseArtifacts → Except String DeltaStore
  | [] => Except.error "There are no releases to generate delta from."
  | first :: rest => generateDeltaLoop rest (initGeneratedFiles first)

/-- Model of `copySnapshotArtifacts`: archive the snapshot's build info, then copy
every artifact verbatim under the snapshot's name, with no comparison. -/
def copySnapshotArtifacts (snap : ReleaseArtifacts) (store : DeltaStore) : DeltaStore :=
  snap.entries.foldl
    (fun acc p =>
      setContract acc p.1 (writeArtifactFile ((lookupContract acc p.1).getD []) snap.name p.2))
    { store with buildInfos := store.buildInfos ++ [snap.name] }

/-- The whole regeneration: the ordered phase, then the snapshot copies. -/
def generateDeltaRun (releases snapshots : List ReleaseArtifacts) :
    Except String DeltaStore :=
  match generateDeltaOrdered releases with
  | Except.error e => Except.error e
  | Except.ok store =>
    Except.ok (snapshots.foldl (fun acc s => copySnapshotArtifacts s acc) store)

/-- A release artifact is content-equivalent to the most recently stored
entry for its key: the contract folder is non-empty, `findLastRelease` finds
the stored last release, its artifact file is present, and the dual
comparison reports no change. -/
def entryUnchanged (store : DeltaStore) (c : String) (a : HardhatArtifact) : Prop :=
  ((lookupContract store c).getD []).isEmpty = false ∧
  ∃ last lastEntry,
    findLastRelease (((lookupContract store c).getD []).map Prod.fst) = Except.ok last ∧
    ((lookupContract store c).getD []).find? (fun q => q.1 == last.name) = some lastEntry ∧
    artifactChanged lastEntry.2 a = false

/-! ### Well-formedness of the delta store -/

/-- A contract history as maintained by the ordered generation phase: all
file names are semver tags, the versions are strictly ascending in creation
order, and adjacent artifacts always differ under the generator's content
comparison. -/
def HistOk (h : List (String × HardhatArtifact)) : Prop :=
  (∀ q ∈ h, isSemverTag q.1 = true) ∧
  List.Chain' (fun a b => (semverOfTag a.1).lexLt (semverOfTag b.1)) h ∧
  List.Chain' (fun a b => artifactChanged a.2 b.2 = true) h

/-- Every contract history of the store is well-formed. -/
def StoreOk (store : DeltaStore) : Prop := ∀ p ∈ store.contracts, HistOk p.2

/-- Every stored version of the history is strictly below `b`. -/
def HistBelow (h : List (String × HardhatArtifact)) (b : Semver) : Prop :=
  ∀ q ∈ h, (semverOfTag q.1).lexLt b

/-- Every stored version of the history is at most `b`. -/
def HistBelowEq (h : List (String × HardhatArtifact)) (b : Semver) : Prop :=
  ∀ q ∈ h, (semverOfTag q.1).lexLe b

/-- The entries of a history whose file name is a semver tag (the ordered
part of the history; snapshot copies use non-semver names). -/
def semverEntries (h : List (String × HardhatArtifact)) :
    List (String × HardhatArtifact) :=
  h.filter (fun q => isSemverTag q.1)

/-- Placeholder used as the `getLastD` default on histories that are known
to be non-empty. -/
def dummyEntry : String × HardhatArtifact := ("", ⟨"", "", ""⟩)

/-! ## The backup/rollback directory transaction of `generateDelta`
(`scripts/generate-delta.ts` lines 48-214)

The run first lists `./releases` and validates the release names (lines
48-75): the listing contains every directory present — including
`generated-delta` and any leftover `generated-delta-old`, of which only the
former is filtered out as reserved — and the run exits with the filesystem
untouched when validation fails.  It then manipulates two directories:
`releases/generated-delta` (the store) and `releases/generated-delta-old`
(the transient backup), modelled as optional abstract contents.  The sequence
is: if the store exists, remove a leftover backup and rename the store to the
backup name; create the fresh target; populate it inside `try`; on success
remove the backup (only when the run created one); on any populate failure
remove the fresh target and rename the backup over the store name if a backup
exists (the source fires this last rename without `await`, but it completes
before the process exits).  Each filesystem operation is atomic in the model
and an injected failure makes the current operation fail with the state
unchanged; a failure at `mkdir` (line 116) exits *without* running the
rollback branch, which only guards the `try` block. -/

/-- The two transient directories of the atomic-directory transaction. -/
structure FsState where
  gdelta : Option String
  gdeltaOld : Option String
deriving DecidableEq, Repr

/-- Failure injection points of a `generateDelta` run. -/
inductive FailPoint where
  /-- `fs.rm("./releases/generated-delta-old")`, line 88. -/
  | atRemoveOld
  /-- `fs.rename("./releases/generated-delta", "…-old")`, line 101. -/
  | atRenameToOld
  /-- `fs.mkdir("./releases/generated-delta")`, line 116 — outside the `try`. -/
  | atMkdir
  /-- any failure inside the `try` block populating the fresh target
  (lines 142-183: `initGeneratedFiles`, `compareAndGenerate`,
  `copySnapshotArtifacts`). -/
  | atPopulate
deriving DecidableEq, Repr

/-- The `./releases` directory listing seen by the enumeration, derived from
the version-release directories present plus the transient directories of the
state: `generated-delta` and `generated-delta-old` are listed like any other
entry when they exist (`readdir` at line 50). -/
def releasesListing (s : FsState) (versionDirs : List String) : List String :=
  versionDirs ++ (if s.gdelta.isSome then ["generated-delta"] else []) ++
    (if s.gdeltaOld.isSome then ["generated-delta-old"] else [])

/-- One `generateDelta` run over the directory pair, returning the final
state and whether the run succeeded.  The release enumeration and semver
validation (lines 48-75) run first and exit with the state untouched on
error — in particular a leftover `generated-delta-old` appears in the
listing, fails the semver check and aborts the run before the transaction —
then the backup/mkdir/populate transaction runs. -/
def runGenerateDeltaFs (s : FsState) (versionDirs : List String) (newContent : String)
    (fail : Option FailPoint) : FsState × Bool :=
  match generateDeltaEnumeration (releasesListing s versionDirs) with
  | Except.error _ => (s, false)
  | Except.ok _ =>
  let hadDelta := s.gdelta.isSome
  if hadDelta && s.gdeltaOld.isSome && (fail == some FailPoint.atRemoveOld) then
    (s, false)
  else
    let s1 : FsState := if hadDelta then { gdelta := s.gdelta, gdeltaOld := none } else s
    if hadDelta && (fail == some FailPoint.atRenameToOld) then (s1, false)
    else
      let s2 : FsState := if hadDelta then { gdelta := none, gdeltaOld := s.gdelta } else s1
      if fail == some FailPoint.atMkdir then (s2, false)
      else
        let s3 : FsState := { s2 with gdelta := some "" }
        if fail == some FailPoint.atPopulate then
          match s3.gdeltaOld with
          | some old => ({ gdelta := some old, gdeltaOld := none }, false)
          | none => ({ s3 with gdelta := none }, false)
        else
          let s5 : FsState := { s3 with gdelta := some newContent }
          if hadDelta then ({ s5 with gdeltaOld := none }, true) else (s5, true)

/-! ## The diff script (`generateDiffWithLatest`, part_009)

Build infos are parsed by a zod schema (`BuildInfo.safeParse`); missing
required fields make the parse fail and `generateContractHashes` throw.  The
hashes of all contracts of a build info are collected into a JS `Map` keyed
by `formKey(path, name) = path ++ "@@@@" ++ name` (modelled by `setAssoc` on
an association list, which is exactly `Map.set`).  The diff walks the fresh
map and then the latest map, `parseKey`-ing each reported key (split on
`"@@@@"`; a missing or empty component throws). -/

/-- A contract entry of a raw build info before schema validation by the
`ContractInfo` schema of `scripts/v2/utils.ts`: the required fields (`abi`,
`evm.bytecode.object`, `metadata`; the schema's remaining required field
`evm.deployedBytecode` is an empty object and carries no data) are `Option`s,
and `safeParse` fails when any is missing. -/
structure RawContractInfo where
  abi : Option (List AbiEntry)
  bytecodeObject : Option String
  metadata : Option String
deriving DecidableEq, Repr

/-- The nested-object part of `BuildInfo.safeParse` for one contract. -/
def RawContractInfo.parse (r : RawContractInfo) : Option ContractInfo :=
  match r.abi, r.bytecodeObject, r.metadata with
  | some a, some b, some m => some ⟨a, b, m⟩
  | _, _, _ => none

/-- A raw build info: `output.contracts` maps file paths to named contracts;
`none` models a build info missing the required `output.contracts` shape. -/
structure RawBuildInfo where
  outputContracts : Option (List (String × List (String × RawContractInfo)))
deriving DecidableEq, Repr

/-- Model of `BuildInfo.safeParse`: succeeds only when every required field of every
contract is present. -/
def parseBuildInfo (raw : RawBuildInfo) :
    Option (List (String × List (String × ContractInfo))) :=
  match raw.outputContracts with
  | none => none
  | some contracts =>
    contracts.mapM (fun (pl : String × List (String × RawContractInfo)) =>
      (pl.2.mapM (fun (nc : String × RawContractInfo) =>
        (nc.2.parse).map (fun ci => (nc.1, ci)))).map
        (fun l => (pl.1, l)))

/-- Model of `formKey(contractPath, contractName)`. -/
def formKey (contractPath contractName : String) : String :=
  contractPath ++ "@@@@" ++ contractName

/-- Model of `key.split("@@@@")` on the underlying characters. -/
def splitKeyAux : List Char → List Char → List (List Char)
  | [], acc => [acc.reverse]
  | '@' :: '@' :: '@' :: '@' :: rest, acc => acc.reverse :: splitKeyAux rest []
  | c :: rest, acc => splitKeyAux rest (c :: acc)

/-- Model of `key.split("@@@@")`. -/
def splitKey (s : String) : List String :=
  (splitKeyAux s.data []).map List.asString

/-- Model of `parseKey`: take the first two components of the split; a missing or
empty path or name component throws `Invalid key`. -/
def parseKey (key : String) : Except String (String × String) :=
  match splitKey key with
  | p :: n :: _ =>
    if p = "" || n = "" then Except.error ("Invalid key: " ++ key)
    else Except.ok (p, n)
  | _ => Except.error ("Invalid key: " ++ key)

/-- Model of `generateContractHashes`: validate the build info, then collect
`hashContract` of every contract into a map keyed by `formKey`. -/
def generateContractHashes (raw : RawBuildInfo) :
    Except String (List (String × List Char)) :=
  match parseBuildInfo raw with
  | none => Except.error "Invalid build info file"
  | some contracts =>
    Except.ok (contracts.foldl (fun acc pl =>
      pl.2.foldl (fun acc nc => setAssoc acc (formKey pl.1 nc.1) (hashContract nc.2)) acc)
      [])

inductive DiffStatus where
  | added
  | changed
  | removed
deriving DecidableEq, Repr

structure DiffEntry where
  path : String
  name : String
  status : DiffStatus
deriving DecidableEq, Repr

/-- The no-latest loop: every staging key is reported `added`. -/
def addedEntries : List (String × List Char) → Except String (List DiffEntry)
  | [] => Except.ok []
  | kh :: rest =>
    match parseKey kh.1 with
    | Except.error e => Except.error e
    | Except.ok pn =>
      match addedEntries rest with
      | Except.error e => Except.error e
      | Except.ok ds => Except.ok (⟨pn.1, pn.2, DiffStatus.added⟩ :: ds)

/-- The fresh-side loop of the diff: parse every key, report `added` for
keys absent from the latest map, `changed` for differing hashes, nothing
for equal hashes. -/
def diffFreshLoop (latestHashes : List (String × List Char)) :
    List (String × List Char) → Except String (List DiffEntry)
  | [] => Except.ok []
  | kh :: rest =>
    match parseKey kh.1 with
    | Except.error e => Except.error e
    | Except.ok pn =>
      match getAssoc latestHashes kh.1 with
      | none =>
        match diffFreshLoop latestHashes rest with
        | Except.error e => Except.error e
        | Except.ok ds => Except.ok (⟨pn.1, pn.2, DiffStatus.added⟩ :: ds)
      | some lh =>
        if lh ≠ kh.2 then
          match diffFreshLoop latestHashes rest with
          | Except.error e => Except.error e
          | Except.ok ds => Except.ok (⟨pn.1, pn.2, DiffStatus.changed⟩ :: ds)
        else diffFreshLoop latestHashes rest

/-- The latest-side loop of the diff: keys absent from the fresh map are
reported `removed` (the key is parsed only when reported). -/
def diffRemovedLoop (freshHashes : List (String × List Char)) :
    List (String × List Char) → Except String (List DiffEntry)
  | [] => Except.ok []
  | kh :: rest =>
    if (getAssoc freshHashes kh.1).isSome then diffRemovedLoop freshHashes rest
    else
      match parseKey kh.1 with
      | Except.error e => Except.error e
      | Except.ok pn =>
        match diffRemovedLoop freshHashes rest with
        | Except.error e => Except.error e
        | Except.ok ds => Except.ok (⟨pn.1, pn.2, DiffStatus.removed⟩ :: ds)

/-- Model of `generateDiffWithLatest`, as a function of the fresh build info and the
optional latest release build info (`none` models a missing
`releases/latest/build-info.json`).  A pure read-only comparison: the
function consumes the two stores and returns only the report. -/
def generateDiffWithLatest (freshRaw : RawBuildInfo) (latestRaw : Option RawBuildInfo) :
    Except String (List DiffEntry) :=
  match generateContractHashes freshRaw with
  | Except.error e =>
    Except.error ("Error generating virtual release contract hashes: " ++ e)
  | Except.ok freshHashes =>
    match latestRaw with
    | none => addedEntries freshHashes
    | some lraw =>
      match generateContractHashes lraw with
      | Except.error e =>
        Except.error ("Error generating latest release contract hashes: " ++ e)
      | Except.ok latestHashes =>
        match diffFreshLoop latestHashes freshHashes with
        | Except.error e => Except.error e
        | Except.ok part1 =>
          match diffRemovedLoop freshHashes latestHashes with
          | Except.error e => Except.error e
          | Except.ok part2 => Except.ok (part1 ++ part2)

/-! ## `lookForContractArtifact` (`scripts/generate-delta.ts` lines 443-484)

The generator recursively walks a directory tree; a directory whose name
ends in `.sol` is a compiled-unit directory: the walker looks for a
`.dbg.json` sidecar, derives the contract name from it, and checks the
`<name>.json` artifact exists — a directory missing either file is skipped
with `continue`, yielding nothing.  Plain files never recurse. -/

/-- A directory tree: `fs.readdir(..., { withFileTypes: true })`. -/
inductive FsTree where
  | file (name : String)
  | dir (name : String) (children : List FsTree)

def FsTree.name : FsTree → String
  | FsTree.file n => n
  | FsTree.dir n _ => n

/-- The names returned by `fs.readdir` of a directory's children. -/
def childNames (children : List FsTree) : List String := children.map FsTree.name

/-- Model of `s.endsWith(suffix)`, computed on the characters. -/
def strEndsWith (s suffix : String) : Bool := suffix.data.isSuffixOf s.data

/-- Model of `s.slice(0, -n)`: drop the last `n` characters. -/
def dropRightStr (s : String) (n : Nat) : String :=
  (s.data.take (s.data.length - n)).asString

mutual
/-- Model of `lookForContractArtifact`: yields the contract names discovered under a
list of directory entries, in directory order (the model elides the file
paths, which are the directory path plus `<name>.json`). -/
def lookForContractArtifact : List FsTree → List String
  | [] => []
  | t :: rest => lookOne t ++ lookForContractArtifact rest

/-- One directory entry of the walk: files yield nothing; a `.sol`
directory yields its contract when both the `.dbg.json` sidecar and the
artifact JSON named after it exist, and is silently skipped (`continue`)
otherwise; any other directory is walked recursively. -/
def lookOne : FsTree → List String
  | FsTree.file _ => []
  | FsTree.dir n children =>
    if strEndsWith n ".sol" then
      match (childNames children).find? (fun f => strEndsWith f ".dbg.json") with
      | none => []
      | some dbgFile =>
        let contractName := dropRightStr dbgFile 9
        if (childNames children).contains (contractName ++ ".json") then [contractName]
        else []
    else lookForContractArtifact children
end

/-! ## Theorems -/

theorem Semver.lexLt_irrefl (a : Semver) : ¬ a.lexLt a := by
  rcases a with ⟨x, y, z⟩
  simp [Semver.lexLt]

theorem Semver.lexLt_trans {a b c : Semver} (h₁ : a.lexLt b) (h₂ : b.lexLt c) :
    a.lexLt c := by
  rcases a with ⟨a1, a2, a3⟩; rcases b with ⟨b1, b2, b3⟩; rcases c with ⟨c1, c2, c3⟩
  simp only [Semver.lexLt] at *
  omega

theorem Semver.lexLe_trans {a b c : Semver} (h₁ : a.lexLe b) (h₂ : b.lexLe c) :
    a.lexLe c := by
  rcases h₁ with rfl | h₁
  · exact h₂
  rcases h₂ with rfl | h₂
  · exact Or.inr h₁
  · exact Or.inr (Semver.lexLt_trans h₁ h₂)

theorem Semver.lexLt_or_le (a b : Semver) : a.lexLt b ∨ b.lexLe a := by
  rcases a with ⟨a1, a2, a3⟩; rcases b with ⟨b1, b2, b3⟩
  simp only [Semver.lexLt, Semver.lexLe, Semver.mk.injEq]
  by_cases h1 : a1 < b1
  · exact Or.inl (Or.inl h1)
  · by_cases h2 : b1 < a1
    · exact Or.inr (Or.inr (Or.inl h2))
    · have e1 : a1 = b1 := by omega
      subst e1
      by_cases h3 : a2 < b2
      · exact Or.inl (Or.inr ⟨rfl, Or.inl h3⟩)
      · by_cases h4 : b2 < a2
        · exact Or.inr (Or.inr (Or.inr ⟨rfl, Or.inl h4⟩))
        · have e2 : a2 = b2 := by omega
          subst e2
          by_cases h5 : a3 < b3
          · exact Or.inl (Or.inr ⟨rfl, Or.inr ⟨rfl, h5⟩⟩)
          · by_cases h6 : b3 < a3
            · exact Or.inr (Or.inr (Or.inr ⟨rfl, Or.inr ⟨rfl, h6⟩⟩))
            · have e3 : a3 = b3 := by omega
              subst e3
              exact Or.inr (Or.inl ⟨rfl, rfl, rfl⟩)

/-- Parsing succeeds exactly on tags accepted by the regex. -/
theorem semverStringToSemver_eq_ok {s : String} (h : isSemverTag s = true) :
    semverStringToSemver s = Except.ok (semverOfTag s) := by
  simp [semverStringToSemver, h]

/-- The two sequential `if`s of the loop body amount to replacing the
accumulator exactly when the new semver is strictly greater. -/
theorem findLastStep_eq (last : LastRelease) (r : String) (sv : Semver) :
    findLastStep last r sv = if last.semver.lexLt sv then ⟨r, sv⟩ else last := by
  rcases last with ⟨n, a1, a2, a3⟩
  rcases sv with ⟨b1, b2, b3⟩
  simp only [findLastStep, Semver.lexLt]
  split_ifs <;>
    first
      | rfl
      | (exfalso; dsimp only at *; omega)

theorem findLastLoop_spec (last : LastRelease) (rest : List String)
    (hvalid : ∀ r ∈ rest, isSemverTag r = true)
    (hlast : last.semver = semverOfTag last.name) :
    ∃ res, findLastLoop last rest = Except.ok res ∧
      (res = last ∨ res.name ∈ rest) ∧
      res.semver = semverOfTag res.name ∧
      last.semver.lexLe res.semver ∧
      ∀ r ∈ rest, (semverOfTag r).lexLe res.semver := by
  induction rest generalizing last with
  | nil => exact ⟨last, rfl, Or.inl rfl, hlast, Or.inl rfl, by simp⟩
  | cons r rest ih =>
    have hr : isSemverTag r = true := hvalid r (by simp)
    have hrest : ∀ x ∈ rest, isSemverTag x = true := fun x hx => hvalid x (by simp [hx])
    have hnext : (findLastStep last r (semverOfTag r)).semver =
        semverOfTag (findLastStep last r (semverOfTag r)).name := by
      rw [findLastStep_eq]
      split_ifs <;> simp [hlast]
    obtain ⟨res, hrun, hmem, hres, hle, hall⟩ :=
      ih (findLastStep last r (semverOfTag r)) hrest hnext
    refine ⟨res, ?_, ?_, hres, ?_, ?_⟩
    · simp only [findLastLoop, semverStringToSemver_eq_ok hr]
      exact hrun
    · rcases hmem with h | h
      · rw [h, findLastStep_eq]
        split_ifs
        · exact Or.inr (by simp)
        · exact Or.inl rfl
      · exact Or.inr (by simp [h])
    · refine Semver.lexLe_trans ?_ hle
      rw [findLastStep_eq]
      split_ifs with h
      · exact Or.inr h
      · exact Or.inl rfl
    · intro x hx
      rcases List.mem_cons.mp hx with rfl | hx
      · refine Semver.lexLe_trans ?_ hle
        rw [findLastStep_eq]
        split_ifs with h
        · exact Or.inl rfl
        · rcases Semver.lexLt_or_le last.semver (semverOfTag x) with h' | h'
          · exact absurd h' h
          · exact h'
      · exact hall x hx

theorem findLastRelease_spec (releases : List String)
    (hne : releases ≠ [])
    (hvalid : ∀ r ∈ releases, isSemverTag r = true) :
    ∃ res, findLastRelease releases = Except.ok res ∧
      res.name ∈ releases ∧
      res.semver = semverOfTag res.name ∧
      ∀ r ∈ releases, (semverOfTag r).lexLe res.semver := by
  match releases with
  | [] => exact absurd rfl hne
  | r0 :: rest =>
    have hr0 : isSemverTag r0 = true := hvalid r0 (by simp)
    have hrest : ∀ x ∈ rest, isSemverTag x = true := fun x hx => hvalid x (by simp [hx])
    obtain ⟨res, hrun, hmem, hres, hle, hall⟩ :=
      findLastLoop_spec ⟨r0, semverOfTag r0⟩ rest hrest rfl
    have hfilter : (r0 :: rest).any (fun r => !isSemverTag r) = false := by
      simp only [List.any_eq_false]
      intro x hx
      simp [hvalid x hx]
    refine ⟨res, ?_, ?_, hres, ?_⟩
    · simp only [findLastRelease, hfilter, Bool.false_eq_true, if_false,
        semverStringToSemver_eq_ok hr0]
      exact hrun
    · rcases hmem with h | h
      · rw [h]; simp
      · simp [h]
    · intro x hx
      rcases List.mem_cons.mp hx with rfl | hx
      · exact hle
      · exact hall x hx

/-- C10: `findLastRelease`, applied to any non-empty list of release names all
matching `v<major>.<minor>.<patch>`, returns an element of the list whose
numeric `(major, minor, patch)` triple is lexicographically greatest among all
elements; applied to an empty list, or to a list containing any name not
matching the pattern, it throws instead of returning a result. -/
theorem findLastRelease_correct (releases : List String) :
    ((releases ≠ [] → (∀ r ∈ releases, isSemverTag r = true) →
      ∃ res, findLastRelease releases = Except.ok res ∧
        res.name ∈ releases ∧
        ∀ r ∈ releases, (semverOfTag r).lexLe (semverOfTag res.name)) ∧
     (releases = [] → ∃ e, findLastRelease releases = Except.error e) ∧
     ((∃ r ∈ releases, isSemverTag r = false) →
      ∃ e, findLastRelease releases = Except.error e)) := by
  refine ⟨?_, ?_, ?_⟩
  · intro hne hvalid
    obtain ⟨res, hrun, hmem, hres, hall⟩ := findLastRelease_spec releases hne hvalid
    exact ⟨res, hrun, hmem, by rw [← hres]; exact hall⟩
  · rintro rfl
    exact ⟨_, rfl⟩
  · rintro ⟨r, hr, hbad⟩
    have hany : releases.any (fun r => !isSemverTag r) = true := by
      simp only [List.any_eq_true]
      exact ⟨r, hr, by simp [hbad]⟩
    refine ⟨"Invalid release names", ?_⟩
    simp [findLastRelease, hany]

/-- Witness for C10 at concrete inputs. -/
theorem findLastRelease_correct_witness :
    (∃ res, findLastRelease ["v1.2.3", "v10.0.1", "v2.0.0"] = Except.ok res ∧
      res.name ∈ ["v1.2.3", "v10.0.1", "v2.0.0"] ∧
      ∀ r ∈ ["v1.2.3", "v10.0.1", "v2.0.0"],
        (semverOfTag r).lexLe (semverOfTag res.name)) ∧
    (∃ e, findLastRelease ([] : List String) = Except.error e) ∧
    (∃ e, findLastRelease ["v1.2.3", "not-a-version"] = Except.error e) :=
  ⟨(findLastRelease_correct ["v1.2.3", "v10.0.1", "v2.0.0"]).1 (by decide) (by decide),
   (findLastRelease_correct []).2.1 rfl,
   (findLastRelease_correct ["v1.2.3", "not-a-version"]).2.2
     ⟨"not-a-version", by decide, by decide⟩⟩

theorem newVersionNotAfterLast_iff (lastSv nsv : Semver) :
    newVersionNotAfterLast lastSv nsv = true ↔ nsv.lexLt lastSv := by
  rcases lastSv with ⟨a1, a2, a3⟩
  rcases nsv with ⟨b1, b2, b3⟩
  simp only [newVersionNotAfterLast, Semver.lexLt, Bool.or_eq_true, Bool.and_eq_true,
    decide_eq_true_eq, beq_iff_eq, Nat.lt_iff_add_one_le]
  omega

/-- C3 counterexample: committing a release name **equal** to the current
highest existing release is not rejected by the validation — the committer
proceeds to the rename step instead of failing with a validation error. -/
theorem commit_equal_name_not_rejected :
    compileForReleaseValidation ["v1.0.0"] "v1.0.0" = CommitOutcome.proceedRename "v1.0.0" := by
  decide

/-- C3 (amended): with a well-formed supplied name and well-formed existing
releases, the committer fails with the "not after the last release"
validation error exactly when the supplied name is strictly **less** than the
current highest existing release; any name greater than or equal to the
current highest (including one equal to it) passes validation and proceeds to
the rename step. -/
theorem commit_monotonicity (dirListing : List String) (newV : String)
    (hne : dirListing.filter (fun r => !reservedDirNames.contains r) ≠ [])
    (hvalid : ∀ r ∈ dirListing.filter (fun r => !reservedDirNames.contains r),
      isSemverTag r = true)
    (hnew : isSemverTag newV = true) :
    ∃ last, findLastRelease (dirListing.filter (fun r => !reservedDirNames.contains r)) =
        Except.ok last ∧
      (∀ r ∈ dirListing.filter (fun r => !reservedDirNames.contains r),
        (semverOfTag r).lexLe last.semver) ∧
      ((semverOfTag newV).lexLt last.semver →
        compileForReleaseValidation dirListing newV = CommitOutcome.notAfterLast last.name) ∧
      (¬ (semverOfTag newV).lexLt last.semver →
        compileForReleaseValidation dirListing newV = CommitOutcome.proceedRename newV) := by
  set prev := dirListing.filter (fun r => !reservedDirNames.contains r) with hprev
  obtain ⟨last, hrun, _hmem, _hres, hallsv⟩ := findLastRelease_spec prev hne hvalid
  have hinv : prev.filter (fun r => !isSemverTag r) = [] := by
    rw [List.filter_eq_nil_iff]
    intro r hr
    simp [hvalid r hr]
  have hnotempty : prev.isEmpty = false := by
    rw [List.isEmpty_eq_false_iff_exists_mem]
    match prev, hne with
    | r :: rest, _ => exact ⟨r, by simp⟩
  refine ⟨last, hrun, hallsv, ?_, ?_⟩
  · intro hlt
    simp only [compileForReleaseValidation, hnew, Bool.not_true, Bool.false_eq_true, if_false,
      ← hprev, hnotempty, hinv, hrun, List.isEmpty_nil, Bool.not_false, if_true]
    rw [if_pos ((newVersionNotAfterLast_iff _ _).mpr hlt)]
  · intro hnlt
    simp only [compileForReleaseValidation, hnew, Bool.not_true, Bool.false_eq_true, if_false,
      ← hprev, hnotempty, hinv, hrun, List.isEmpty_nil, Bool.not_false, if_true]
    rw [if_neg (fun hc => hnlt ((newVersionNotAfterLast_iff _ _).mp hc))]

/-- Witness for the amended C3 at concrete inputs: `v0.9.9` is rejected
against the highest release `v1.0.0`; `v1.0.0` itself proceeds. -/
theorem commit_monotonicity_witness :
    ∃ last, findLastRelease (["v1.0.0", "tmp"].filter
        (fun r => !reservedDirNames.contains r)) = Except.ok last ∧
      (∀ r ∈ ["v1.0.0", "tmp"].filter (fun r => !reservedDirNames.contains r),
        (semverOfTag r).lexLe last.semver) ∧
      ((semverOfTag "v0.9.9").lexLt last.semver →
        compileForReleaseValidation ["v1.0.0", "tmp"] "v0.9.9" =
          CommitOutcome.notAfterLast last.name) ∧
      (¬ (semverOfTag "v0.9.9").lexLt last.semver →
        compileForReleaseValidation ["v1.0.0", "tmp"] "v0.9.9" =
          CommitOutcome.proceedRename "v0.9.9") :=
  commit_monotonicity ["v1.0.0", "tmp"] "v0.9.9" (by decide) (by decide) (by decide)

theorem string_data_inj {s t : String} (h : s.data = t.data) : s = t := by
  cases s; cases t; exact congrArg String.mk h

theorem charListLe_total (a b : List Char) :
    charListLe a b = true ∨ charListLe b a = true := by
  induction a generalizing b with
  | nil => exact Or.inl rfl
  | cons x xs ih =>
    cases b with
    | nil => exact Or.inr rfl
    | cons y ys =>
      by_cases hxy : x = y
      · subst hxy
        simpa [charListLe] using ih ys
      · simp only [charListLe, if_neg hxy, if_neg (Ne.symm hxy)]
        rcases lt_trichotomy x y with h | h | h
        · exact Or.inl (by simpa using h)
        · exact absurd h hxy
        · exact Or.inr (by simpa using h)

theorem charListLe_antisymm : ∀ {a b : List Char},
    charListLe a b = true → charListLe b a = true → a = b
  | [], [], _, _ => rfl
  | [], _ :: _, _, h => by simp [charListLe] at h
  | _ :: _, [], h, _ => by simp [charListLe] at h
  | x :: xs, y :: ys, h₁, h₂ => by
    by_cases hxy : x = y
    · subst hxy
      simp only [charListLe, if_pos rfl] at h₁ h₂
      rw [charListLe_antisymm h₁ h₂]
    · simp only [charListLe, if_neg hxy, if_neg (Ne.symm hxy), decide_eq_true_eq] at h₁ h₂
      exact absurd (lt_trans h₁ h₂) (lt_irrefl x)

theorem charListLe_trans : ∀ {a b c : List Char},
    charListLe a b = true → charListLe b c = true → charListLe a c = true
  | [], _, _, _, _ => rfl
  | _ :: _, [], _, h, _ => by simp [charListLe] at h
  | _ :: _, _ :: _, [], _, h => by simp [charListLe] at h
  | x :: xs, y :: ys, z :: zs, h₁, h₂ => by
    by_cases hxy : x = y <;> by_cases hyz : y = z
    · subst hxy; subst hyz
      simp only [charListLe, if_pos rfl] at h₁ h₂ ⊢
      exact charListLe_trans h₁ h₂
    · subst hxy
      simpa [charListLe, hyz] using h₂
    · subst hyz
      simpa [charListLe, hxy] using h₁
    · simp only [charListLe, if_neg hxy, if_neg hyz, decide_eq_true_eq] at h₁ h₂
      have hxz : x < z := lt_trans h₁ h₂
      simp [charListLe, ne_of_lt hxz, hxz]

theorem nameLe_total (a b : AbiEntry) : nameLe a b = true ∨ nameLe b a = true :=
  charListLe_total _ _

theorem nameLe_trans {a b c : AbiEntry} (h₁ : nameLe a b = true)
    (h₂ : nameLe b c = true) : nameLe a c = true :=
  charListLe_trans h₁ h₂

theorem nameLe_antisymm {a b : AbiEntry} (h₁ : nameLe a b = true)
    (h₂ : nameLe b a = true) : a.name = b.name :=
  string_data_inj (charListLe_antisymm h₁ h₂)

theorem insertAbiEntry_perm (e : AbiEntry) (l : List AbiEntry) :
    (insertAbiEntry e l).Perm (e :: l) := by
  induction l with
  | nil => simp [insertAbiEntry]
  | cons x xs ih =>
    simp only [insertAbiEntry]
    split_ifs
    · exact List.Perm.refl _
    · exact ((ih.cons x).trans (List.Perm.swap e x xs))

theorem sortAbiByName_perm (l : List AbiEntry) : (sortAbiByName l).Perm l := by
  induction l with
  | nil => exact List.Perm.refl _
  | cons x xs ih =>
    exact (insertAbiEntry_perm x (sortAbiByName xs)).trans (ih.cons x)

theorem charListLe_refl (a : List Char) : charListLe a a = true := by
  induction a with
  | nil => rfl
  | cons x xs ih => simpa [charListLe] using ih

theorem nameLe_refl (a : AbiEntry) : nameLe a a = true := charListLe_refl _

theorem insertAbiEntry_sorted {e : AbiEntry} {l : List AbiEntry}
    (h : NamesSorted l) : NamesSorted (insertAbiEntry e l) := by
  induction l with
  | nil => simp [insertAbiEntry, NamesSorted]
  | cons x xs ih =>
    rcases List.pairwise_cons.mp h with ⟨hx, hxs⟩
    simp only [insertAbiEntry]
    split_ifs with hle
    · refine List.pairwise_cons.mpr ⟨?_, h⟩
      intro b hb
      rcases List.mem_cons.mp hb with rfl | hb
      · exact hle
      · exact nameLe_trans hle (hx b hb)
    · refine List.pairwise_cons.mpr ⟨?_, ih hxs⟩
      intro b hb
      have hmem : b ∈ e :: xs := (insertAbiEntry_perm e xs).mem_iff.mp hb
      rcases List.mem_cons.mp hmem with rfl | hb'
      · rcases nameLe_total x b with h' | h'
        · exact h'
        · exact absurd h' (by simpa using hle)
      · exact hx b hb'

theorem sortAbiByName_sorted (l : List AbiEntry) : NamesSorted (sortAbiByName l) := by
  induction l with
  | nil => simp [sortAbiByName, NamesSorted]
  | cons x xs ih => exact insertAbiEntry_sorted ih

/-- Two parsed abi entries with the same name are equal: the parsed entry
holds only its name. -/
theorem abiEntry_eq_of_name_eq {a b : AbiEntry} (h : a.name = b.name) : a = b := by
  cases a
  cases b
  exact congrArg AbiEntry.mk h

/-- Two name-sorted lists of parsed abi entries that are permutations of each
other are equal: comparator ties happen exactly between equal entries, so the
sorted order is determined by the entry multiset alone. -/
theorem sorted_perm_eq :
    ∀ {l₁ l₂ : List AbiEntry}, l₁.Perm l₂ → NamesSorted l₁ → NamesSorted l₂ → l₁ = l₂
  | [], l₂, hp, _, _ => (hp.nil_eq).symm ▸ rfl
  | a :: t₁, [], hp, _, _ => absurd hp.symm.nil_eq (by simp)
  | a :: t₁, b :: t₂, hp, hs₁, hs₂ => by
    rcases List.pairwise_cons.mp hs₁ with ⟨ha, hs₁'⟩
    rcases List.pairwise_cons.mp hs₂ with ⟨hb, hs₂'⟩
    have hab : nameLe a b = true := by
      have : b ∈ a :: t₁ := hp.symm.subset (by simp)
      rcases List.mem_cons.mp this with rfl | hmem
      · exact nameLe_refl _
      · exact ha b hmem
    have hba : nameLe b a = true := by
      have : a ∈ b :: t₂ := hp.subset (by simp)
      rcases List.mem_cons.mp this with rfl | hmem
      · exact nameLe_refl _
      · exact hb a hmem
    have hb_eq : b = a := abiEntry_eq_of_name_eq (nameLe_antisymm hba hab)
    subst hb_eq
    have htail : t₁.Perm t₂ := hp.cons_inv
    have : t₁ = t₂ := sorted_perm_eq htail hs₁' hs₂'
    rw [this]

/-- C6: the hash is invariant under **every** permutation of the
interface-entry list — a parsed entry holds only its `name`, so comparator
ties are between identical entries and the stable sort's output is determined
by the entry multiset alone — and for every deployable artifact (non-empty
bytecode object) the hash is sensitive to any change of the bytecode object
string or of the metadata string. -/
theorem hash_perm_invariant_and_sensitive :
    (∀ c c' : ContractInfo, c.abi.Perm c'.abi →
      c.bytecodeObject = c'.bytecodeObject → c.metadata = c'.metadata →
      hashContract c = hashContract c') ∧
    (∀ c c' : ContractInfo, c.bytecodeObject ≠ "" →
      c.abi = c'.abi → c.metadata = c'.metadata →
      c.bytecodeObject ≠ c'.bytecodeObject →
      hashContract c ≠ hashContract c') ∧
    (∀ c c' : ContractInfo, c.bytecodeObject ≠ "" →
      c.abi = c'.abi → c.bytecodeObject = c'.bytecodeObject →
      c.metadata ≠ c'.metadata →
      hashContract c ≠ hashContract c') := by
  refine ⟨?_, ?_, ?_⟩
  · intro c c' hperm hbc hmeta
    have hsort : sortAbiByName c.abi = sortAbiByName c'.abi := by
      apply sorted_perm_eq
      · exact (sortAbiByName_perm c.abi).trans (hperm.trans (sortAbiByName_perm c'.abi).symm)
      · exact sortAbiByName_sorted _
      · exact sortAbiByName_sorted _
    unfold hashContract
    rw [hsort, hbc, hmeta]
  · intro c c' _ habi hmeta hbc heq
    unfold hashContract at heq
    rw [habi, hmeta] at heq
    have h₁ := List.append_cancel_right heq
    have h₂ := List.append_cancel_left h₁
    exact hbc (string_data_inj h₂)
  · intro c c' _ habi hbc hmeta heq
    unfold hashContract at heq
    rw [habi, hbc] at heq
    have h₁ := List.append_cancel_left heq
    exact hmeta (string_data_inj h₁)

/-- Witness for C6 at concrete inputs. -/
theorem hash_perm_invariant_and_sensitive_witness :
    hashContract ⟨[⟨"g"⟩, ⟨"f"⟩, ⟨"f"⟩], "0xAA", "m"⟩ =
      hashContract ⟨[⟨"f"⟩, ⟨"g"⟩, ⟨"f"⟩], "0xAA", "m"⟩ ∧
    hashContract ⟨[], "0xAA", "m"⟩ ≠ hashContract ⟨[], "0xBB", "m"⟩ ∧
    hashContract ⟨[], "0xAA", "m"⟩ ≠ hashContract ⟨[], "0xAA", "m2"⟩ :=
  ⟨hash_perm_invariant_and_sensitive.1 _ _ (by decide) rfl rfl,
   hash_perm_invariant_and_sensitive.2.1 _ _ (by decide) rfl rfl (by decide),
   hash_perm_invariant_and_sensitive.2.2 _ _ (by decide) rfl rfl (by decide)⟩

/-- C1 counterexample: `hashContract` has no placeholder-bytecode branch.
Two non-deployable artifacts (empty bytecode object) with identical interface
descriptions but different metadata receive different digests, refuting the
claimed interface-only hashing rule for non-deployable artifacts. -/
theorem hash_no_nondeployable_branch :
    (ContractInfo.mk [⟨"f"⟩] "" "metaA").bytecodeObject = "" ∧
    (ContractInfo.mk [⟨"f"⟩] "" "metaB").bytecodeObject = "" ∧
    (ContractInfo.mk [⟨"f"⟩] "" "metaA").abi =
      (ContractInfo.mk [⟨"f"⟩] "" "metaB").abi ∧
    hashContract (ContractInfo.mk [⟨"f"⟩] "" "metaA") ≠
      hashContract (ContractInfo.mk [⟨"f"⟩] "" "metaB") := by
  exact ⟨rfl, rfl, rfl, by decide⟩

/-- C1 (amended): `hashContract` applies one uniform rule to every artifact,
deployable or not: the digest is over the parsed interface entries sorted by
name — strip-mode schema parsing reduces each entry to its `name` field, so
the interface contributes only its sorted name list — then the bytecode
object string, then the metadata string, in that fixed order.  In particular
a placeholder-bytecode artifact's hash still depends on its metadata and
bytecode fields, so equal-interface non-deployable artifacts with different
metadata are **not** content-equivalent under `hashContract`.  (An
interface-only comparison for non-deployable artifacts exists only in
`compareAndGenerate` of `generate-delta.ts`, which is not a hash.) -/
theorem hash_uniform_rule :
    (∀ c : ContractInfo, hashContract c =
      ((sortAbiByName c.abi).map (fun e => (jsonStringifyAbiEntry e).data)).flatten
        ++ c.bytecodeObject.data ++ c.metadata.data) ∧
    (∀ c c' : ContractInfo, c.bytecodeObject = "" → c'.bytecodeObject = "" →
      c.abi = c'.abi → c.metadata ≠ c'.metadata →
      hashContract c ≠ hashContract c') := by
  refine ⟨fun c => rfl, ?_⟩
  intro c c' hb hb' habi hmeta heq
  unfold hashContract at heq
  rw [habi, hb, hb'] at heq
  have h₁ := List.append_cancel_left heq
  exact hmeta (string_data_inj h₁)

/-- Witness for the amended C1 at concrete inputs. -/
theorem hash_uniform_rule_witness :
    hashContract ⟨[], "", "mA"⟩ =
      (([] : List AbiEntry).map (fun e => (jsonStringifyAbiEntry e).data)).flatten
        ++ "".data ++ "mA".data ∧
    hashContract ⟨[⟨"f"⟩], "", "mA"⟩ ≠
      hashContract ⟨[⟨"f"⟩], "", "mB"⟩ :=
  ⟨hash_uniform_rule.1 ⟨[], "", "mA"⟩,
   hash_uniform_rule.2 _ _ rfl rfl rfl (by decide)⟩

/-- C9: `generated-delta-old` is **not** among the names excluded from
version enumeration (the filter keeps only `tmp`, `generated-delta`,
`snapshots`), so a leftover `generated-delta-old` backup directory is treated
as a release name and makes version-tag validation fail: enumeration over a
store containing `v1.0.0` and a leftover backup errors, naming
`generated-delta-old` as an invalid release. -/
theorem generated_delta_old_not_excluded :
    ("generated-delta-old" ∉ reservedDirNames) ∧
    generateDeltaEnumeration ["v1.0.0", "generated-delta-old"] =
      Except.error
        "Invalid release names have been found. Invalid releases: generated-delta-old" := by
  exact ⟨by decide, by rfl⟩

theorem compareAndGenerateEntries_unchanged (relName : String)
    (entries : List (String × HardhatArtifact)) (store : DeltaStore)
    (nFiles nFolders : Nat)
    (h : ∀ p ∈ entries, entryUnchanged store p.1 p.2) :
    compareAndGenerateEntries relName entries store nFiles nFolders =
      Except.ok (store, nFiles, nFolders) := by
  induction entries with
  | nil => rfl
  | cons p rest ih =>
    obtain ⟨c, a⟩ := p
    obtain ⟨hne, last, lastEntry, hlast, hfind, hchanged⟩ := h (c, a) (by simp)
    simp only [compareAndGenerateEntries, hne, Bool.false_eq_true, if_false,
      hlast, hfind, hchanged, if_false]
    exact ih (fun q hq => h q (by simp [hq]))

theorem generateDeltaLoop_append (l₁ l₂ : List ReleaseArtifacts) (s : DeltaStore) :
    generateDeltaLoop (l₁ ++ l₂) s =
      match generateDeltaLoop l₁ s with
      | Except.error e => Except.error e
      | Except.ok s' => generateDeltaLoop l₂ s' := by
  induction l₁ generalizing s with
  | nil => simp [generateDeltaLoop]
  | cons r rest ih =>
    simp only [List.cons_append, generateDeltaLoop]
    match compareAndGenerate r s with
    | Except.error e => rfl
    | Except.ok (s', empty) =>
      simp only
      split_ifs
      · rfl
      · exact ih s'

/-- C4: during delta regeneration, a non-first ordered release all of whose
artifacts are content-equivalent to the most recently stored entries
contributes zero new artifact entries and is reported empty; any non-first
release reported empty makes the whole regeneration fail with the
empty-release error carrying the offending release's name (a message distinct
from every other failure of the generator); the first release is exempt —
a run over it alone always succeeds. -/
theorem empty_release_guard :
    (∀ first : ReleaseArtifacts,
      generateDeltaOrdered [first] = Except.ok (initGeneratedFiles first)) ∧
    (∀ (rel : ReleaseArtifacts) (store : DeltaStore),
      (∀ p ∈ rel.entries, entryUnchanged store p.1 p.2) →
      compareAndGenerate rel store =
        Except.ok ({ store with buildInfos := store.buildInfos ++ [rel.name] }, true)) ∧
    (∀ (first : ReleaseArtifacts) (pre : List ReleaseArtifacts) (r : ReleaseArtifacts)
       (post : List ReleaseArtifacts) (store store' : DeltaStore),
      generateDeltaLoop pre (initGeneratedFiles first) = Except.ok store →
      compareAndGenerate r store = Except.ok (store', true) →
      generateDeltaOrdered (first :: pre ++ r :: post) =
        Except.error (emptyReleaseError r.name)) := by
  refine ⟨fun first => rfl, ?_, ?_⟩
  · intro rel store h
    have h' : ∀ p ∈ rel.entries,
        entryUnchanged { store with buildInfos := store.buildInfos ++ [rel.name] } p.1 p.2 :=
      fun p hp => h p hp
    simp only [compareAndGenerate,
      compareAndGenerateEntries_unchanged rel.name rel.entries _ 1 0 h']
    rfl
  · intro first pre r post store store' hpre hempty
    show generateDeltaLoop (pre ++ r :: post) (initGeneratedFiles first) =
      Except.error (emptyReleaseError r.name)
    rw [generateDeltaLoop_append, hpre]
    simp [generateDeltaLoop, hempty]

/-- Witness for C4 at concrete inputs: a second release `v1.1.0` repeating
`v1.0.0`'s only artifact is reported empty and aborts the regeneration. -/
theorem empty_release_guard_witness :
    (generateDeltaOrdered [⟨"v1.0.0", [("Counter", ⟨"0xAA", "[]", "r"⟩)]⟩] =
      Except.ok (initGeneratedFiles ⟨"v1.0.0", [("Counter", ⟨"0xAA", "[]", "r"⟩)]⟩)) ∧
    (compareAndGenerate ⟨"v1.1.0", [("Counter", ⟨"0xAA", "[]", "r"⟩)]⟩
        (initGeneratedFiles ⟨"v1.0.0", [("Counter", ⟨"0xAA", "[]", "r"⟩)]⟩) =
      Except.ok
        ({ initGeneratedFiles ⟨"v1.0.0", [("Counter", ⟨"0xAA", "[]", "r"⟩)]⟩ with
            buildInfos :=
              (initGeneratedFiles ⟨"v1.0.0", [("Counter", ⟨"0xAA", "[]", "r"⟩)]⟩).buildInfos
                ++ ["v1.1.0"] }, true)) ∧
    (generateDeltaOrdered
        [⟨"v1.0.0", [("Counter", ⟨"0xAA", "[]", "r"⟩)]⟩,
         ⟨"v1.1.0", [("Counter", ⟨"0xAA", "[]", "r"⟩)]⟩] =
      Except.error (emptyReleaseError "v1.1.0")) := by
  refine ⟨empty_release_guard.1 _, ?_, ?_⟩
  · refine empty_release_guard.2.1 _ _ ?_
    intro p hp
    rcases List.mem_singleton.mp hp with rfl
    exact ⟨by rfl, ⟨"v1.0.0", semverOfTag "v1.0.0"⟩, ("v1.0.0", ⟨"0xAA", "[]", "r"⟩),
      by rfl, by rfl, by rfl⟩
  · have h2 := empty_release_guard.2.1 ⟨"v1.1.0", [("Counter", ⟨"0xAA", "[]", "r"⟩)]⟩
      (initGeneratedFiles ⟨"v1.0.0", [("Counter", ⟨"0xAA", "[]", "r"⟩)]⟩)
      (by
        intro p hp
        rcases List.mem_singleton.mp hp with rfl
        exact ⟨by rfl, ⟨"v1.0.0", semverOfTag "v1.0.0"⟩, ("v1.0.0", ⟨"0xAA", "[]", "r"⟩),
          by rfl, by rfl, by rfl⟩)
    have h3 := empty_release_guard.2.2
      ⟨"v1.0.0", [("Counter", ⟨"0xAA", "[]", "r"⟩)]⟩ []
      ⟨"v1.1.0", [("Counter", ⟨"0xAA", "[]", "r"⟩)]⟩ [] _ _ rfl h2
    simpa using h3

theorem find?_pair_cons {β : Type} (q : String × β) (t : List (String × β)) (c' : String) :
    List.find? (fun p => p.1 == c') (q :: t) =
      if q.1 == c' then some q else List.find? (fun p => p.1 == c') t := by
  rw [List.find?_cons]
  rcases hb : (q.1 == c') with _ | _ <;> simp [hb]

theorem getAssoc_setAssoc_self {β : Type} (l : List (String × β)) (c : String) (v : β) :
    getAssoc (setAssoc l c v) c = some v := by
  unfold setAssoc
  split_ifs with hany
  · induction l with
    | nil => simp at hany
    | cons p t ih =>
      by_cases hp : p.1 = c
      · have h1 : (if (p.1 == c) = true then (c, v) else p) = (c, v) := by simp [hp]
        unfold getAssoc
        rw [List.map_cons, h1, find?_pair_cons]
        simp
      · have hp' : (p.1 == c) = false := beq_eq_false_iff_ne.mpr hp
        have h1 : (if (p.1 == c) = true then (c, v) else p) = p := by simp [hp']
        have hany' : t.any (fun p => p.1 == c) = true := by
          rcases List.any_eq_true.mp hany with ⟨q, hq, hqc⟩
          rcases List.mem_cons.mp hq with rfl | hq'
          · exact absurd (by simpa using hqc) hp
          · exact List.any_eq_true.mpr ⟨q, hq', hqc⟩
        have hrec := ih hany'
        unfold getAssoc at hrec ⊢
        rw [List.map_cons, h1, find?_pair_cons, hp']
        simpa using hrec
  · have hnone : l.find? (fun p => p.1 == c) = none := by
      rw [List.find?_eq_none]
      intro x hx hbx
      exact hany (List.any_eq_true.mpr ⟨x, hx, hbx⟩)
    unfold getAssoc
    rw [List.find?_append, hnone]
    simp [find?_pair_cons]

theorem find?_map_setAssoc {β : Type} (l : List (String × β)) (c c' : String) (v : β)
    (hc' : ((c : String) == c') = false) :
    List.find? (fun p => p.1 == c')
        (l.map (fun p => if p.1 == c then (c, v) else p)) =
      List.find? (fun p => p.1 == c') l := by
  induction l with
  | nil => rfl
  | cons p t ih =>
    by_cases hp : p.1 = c
    · have h1 : (if (p.1 == c) = true then (c, v) else p) = (c, v) := by simp [hp]
      have hpc' : (p.1 == c') = false := by rw [hp]; exact hc'
      rw [List.map_cons, h1, find?_pair_cons, find?_pair_cons]
      simp only [hpc', hc', Bool.false_eq_true, if_false]
      exact ih
    · have hp' : (p.1 == c) = false := beq_eq_false_iff_ne.mpr hp
      have h1 : (if (p.1 == c) = true then (c, v) else p) = p := by simp [hp']
      rw [List.map_cons, h1, find?_pair_cons, find?_pair_cons]
      rcases hb : (p.1 == c') with _ | _
      · simp only [Bool.false_eq_true, if_false]
        exact ih
      · simp

theorem getAssoc_setAssoc_ne {β : Type} (l : List (String × β)) (c c' : String) (v : β)
    (hne : c' ≠ c) : getAssoc (setAssoc l c v) c' = getAssoc l c' := by
  have hc' : ((c : String) == c') = false := beq_eq_false_iff_ne.mpr (Ne.symm hne)
  unfold setAssoc
  split_ifs with hany
  · unfold getAssoc
    rw [find?_map_setAssoc l c c' v hc']
  · unfold getAssoc
    rw [List.find?_append]
    rcases hfind : l.find? (fun p => p.1 == c') with _ | q
    · simp [hfind, find?_pair_cons, hc']
    · simp [hfind]

theorem mem_setAssoc {β : Type} {l : List (String × β)} {c : String} {v : β}
    {p : String × β} (hp : p ∈ setAssoc l c v) : p = (c, v) ∨ p ∈ l := by
  unfold setAssoc at hp
  split_ifs at hp with hany
  · rcases List.mem_map.mp hp with ⟨q, hq, hfq⟩
    by_cases hqc : q.1 = c
    · left
      rw [← hfq]
      simp [hqc]
    · right
      have : (q.1 == c) = false := beq_eq_false_iff_ne.mpr hqc
      rw [← hfq]
      simpa [this] using hq
  · rcases List.mem_append.mp hp with h | h
    · exact Or.inr h
    · exact Or.inl (by simpa using h)

theorem getAssoc_some_mem {β : Type} {l : List (String × β)} {c : String} {v : β}
    (h : getAssoc l c = some v) : (c, v) ∈ l := by
  unfold getAssoc at h
  rcases hfind : l.find? (fun p => p.1 == c) with _ | q
  · rw [hfind] at h; simp at h
  · rw [hfind] at h
    have hq1 : q.1 = c := by simpa using List.find?_some hfind
    have hq2 : q.2 = v := by simpa using h
    have := List.mem_of_find?_eq_some hfind
    rwa [← hq1, ← hq2, Prod.mk.eta]

/-- On a list of tags whose numeric triples are strictly ascending,
`findLastRelease` returns the last element. -/
theorem findLastLoop_ascending (rest : List String) :
    ∀ (acc : LastRelease),
      (∀ r ∈ rest, isSemverTag r = true) →
      acc.semver = semverOfTag acc.name →
      List.Chain' (fun a b => (semverOfTag a).lexLt (semverOfTag b)) (acc.name :: rest) →
      findLastLoop acc rest =
        Except.ok ⟨rest.getLastD acc.name, semverOfTag (rest.getLastD acc.name)⟩ := by
  induction rest with
  | nil =>
    intro acc _ hacc _
    rcases acc with ⟨n, sv⟩
    simp only [findLastLoop, List.getLastD]
    rw [show sv = semverOfTag n from hacc]
  | cons r rest ih =>
    intro acc hvalid hacc hchain
    have hr : isSemverTag r = true := hvalid r (by simp)
    have hlt : (semverOfTag acc.name).lexLt (semverOfTag r) :=
      (List.chain'_cons.mp hchain).1
    have hstep : findLastStep acc r (semverOfTag r) = ⟨r, semverOfTag r⟩ := by
      rw [findLastStep_eq, hacc, if_pos hlt]
    simp only [findLastLoop, semverStringToSemver_eq_ok hr]
    rw [hstep, List.getLastD_cons]
    exact ih ⟨r, semverOfTag r⟩ (fun x hx => hvalid x (by simp [hx])) rfl
      (List.chain'_cons.mp hchain).2

theorem findLastRelease_ascending (r0 : String) (rest : List String)
    (hvalid : ∀ r ∈ r0 :: rest, isSemverTag r = true)
    (hasc : List.Chain' (fun a b => (semverOfTag a).lexLt (semverOfTag b)) (r0 :: rest)) :
    findLastRelease (r0 :: rest) =
      Except.ok ⟨rest.getLastD r0, semverOfTag (rest.getLastD r0)⟩ := by
  have hfilter : (r0 :: rest).any (fun r => !isSemverTag r) = false := by
    simp only [List.any_eq_false]
    intro x hx
    simp [hvalid x hx]
  simp only [findLastRelease, hfilter, Bool.false_eq_true, if_false,
    semverStringToSemver_eq_ok (hvalid r0 (by simp))]
  exact findLastLoop_ascending rest ⟨r0, semverOfTag r0⟩
    (fun x hx => hvalid x (by simp [hx])) rfl hasc

theorem lexLe_lt_trans {a b c : Semver} (h₁ : a.lexLe b) (h₂ : b.lexLt c) : a.lexLt c := by
  rcases h₁ with rfl | h₁
  · exact h₂
  · exact Semver.lexLt_trans h₁ h₂

theorem chain'_lt_all {x : String × HardhatArtifact} :
    ∀ {h : List (String × HardhatArtifact)},
      List.Chain' (fun a b => (semverOfTag a.1).lexLt (semverOfTag b.1)) (x :: h) →
      ∀ z ∈ h, (semverOfTag x.1).lexLt (semverOfTag z.1) := by
  intro h
  induction h generalizing x with
  | nil => intro _ z hz; simp at hz
  | cons y t ih =>
    intro hc z hz
    have h1 : (semverOfTag x.1).lexLt (semverOfTag y.1) := (List.chain'_cons.mp hc).1
    rcases List.mem_cons.mp hz with rfl | hz'
    · exact h1
    · exact Semver.lexLt_trans h1 (ih (List.chain'_cons.mp hc).2 z hz')

theorem getLastD_mem {β : Type} :
    ∀ {h : List β}, h ≠ [] → ∀ (d : β), h.getLastD d ∈ h
  | [], hne, _ => absurd rfl hne
  | [x], _, d => by simp [List.getLastD]
  | x :: y :: t, _, d => by
    rw [List.getLastD_cons]
    exact List.mem_cons_of_mem x (getLastD_mem (by simp) x)

theorem getLastD_indep {β : Type} :
    ∀ {h : List β}, h ≠ [] → ∀ d₁ d₂ : β, h.getLastD d₁ = h.getLastD d₂
  | [], hne, _, _ => absurd rfl hne
  | [x], _, d₁, d₂ => rfl
  | x :: y :: t, _, d₁, d₂ => by
    rw [List.getLastD_cons, List.getLastD_cons d₂ x]

/-- In a strictly ascending history every non-last entry is strictly below
the last entry. -/
theorem chain'_lt_getLastD (d : String × HardhatArtifact) :
    ∀ {h : List (String × HardhatArtifact)},
      List.Chain' (fun a b => (semverOfTag a.1).lexLt (semverOfTag b.1)) h →
      ∀ q ∈ h, q = h.getLastD d ∨
        (semverOfTag q.1).lexLt (semverOfTag (h.getLastD d).1) := by
  intro h
  induction h with
  | nil => intro _ q hq; simp at hq
  | cons x t ih =>
    intro hc q hq
    match t with
    | [] =>
      rcases List.mem_singleton.mp hq with rfl
      exact Or.inl rfl
    | y :: t' =>
      have hgl : (x :: y :: t').getLastD d = (y :: t').getLastD d := by
        rw [List.getLastD_cons]
        exact getLastD_indep (by simp) x d
      rcases List.mem_cons.mp hq with rfl | hq'
      · right
        rw [hgl]
        exact chain'_lt_all hc _ (getLastD_mem (by simp) d)
      · rw [hgl]
        exact ih (List.chain'_cons.mp hc).2 q hq'

/-- Equal tags have equal parsed triples, so a strictly smaller triple means
a different tag. -/
theorem name_ne_of_lt {a b : String} (h : (semverOfTag a).lexLt (semverOfTag b)) :
    a ≠ b := by
  intro he
  rw [he] at h
  exact Semver.lexLt_irrefl _ h

/-- Model of `fs.readFile` of the last release's artifact: in a strictly ascending
history, looking up the last entry's name finds exactly the last entry. -/
theorem find?_getLastD (d : String × HardhatArtifact) :
    ∀ {h : List (String × HardhatArtifact)}, h ≠ [] →
      List.Chain' (fun a b => (semverOfTag a.1).lexLt (semverOfTag b.1)) h →
      h.find? (fun q => q.1 == (h.getLastD d).1) = some (h.getLastD d) := by
  intro h
  induction h with
  | nil => intro hne _; exact absurd rfl hne
  | cons x t ih =>
    intro _ hc
    match t with
    | [] => simp [find?_pair_cons, List.getLastD]
    | y :: t' =>
      have hgl : (x :: y :: t').getLastD d = (y :: t').getLastD d := by
        rw [List.getLastD_cons]
        exact getLastD_indep (by simp) x d
      have hlt : (semverOfTag x.1).lexLt (semverOfTag ((y :: t').getLastD d).1) :=
        chain'_lt_all hc _ (getLastD_mem (by simp) d)
      have hnex : (x.1 == ((y :: t').getLastD d).1) = false :=
        beq_eq_false_iff_ne.mpr (name_ne_of_lt hlt)
      rw [hgl, find?_pair_cons, hnex]
      simp only [Bool.false_eq_true, if_false]
      exact ih (by simp) (List.chain'_cons.mp hc).2

theorem map_fst_getLastD :
    ∀ (h : List (String × HardhatArtifact)) (d : String × HardhatArtifact),
      (h.map Prod.fst).getLastD d.1 = (h.getLastD d).1
  | [], d => rfl
  | x :: t, d => by
    rw [List.map_cons, List.getLastD_cons, List.getLastD_cons, map_fst_getLastD t x]

/-- Applying `findLastRelease` over the stored file names of a non-empty strictly
ascending history returns the last entry's name. -/
theorem findLastRelease_hist (d : String × HardhatArtifact)
    {h : List (String × HardhatArtifact)} (hne : h ≠ [])
    (hvalid : ∀ q ∈ h, isSemverTag q.1 = true)
    (hasc : List.Chain' (fun a b => (semverOfTag a.1).lexLt (semverOfTag b.1)) h) :
    findLastRelease (h.map Prod.fst) =
      Except.ok ⟨(h.getLastD d).1, semverOfTag (h.getLastD d).1⟩ := by
  match h, hne with
  | q0 :: t, _ =>
    rw [List.map_cons]
    have hv : ∀ r ∈ q0.1 :: t.map Prod.fst, isSemverTag r = true := by
      intro r hr
      rcases List.mem_cons.mp hr with rfl | hr'
      · exact hvalid q0 (by simp)
      · rcases List.mem_map.mp hr' with ⟨q, hq, rfl⟩
        exact hvalid q (by simp [hq])
    have hchain : List.Chain' (fun a b => (semverOfTag a).lexLt (semverOfTag b))
        (q0.1 :: t.map Prod.fst) := by
      rw [← List.map_cons]
      exact (List.chain'_map Prod.fst).mpr hasc
    rw [findLastRelease_ascending q0.1 (t.map Prod.fst) hv hchain]
    have : (t.map Prod.fst).getLastD q0.1 = ((q0 :: t).getLastD d).1 := by
      rw [List.getLastD_cons, map_fst_getLastD t q0]
    rw [this]

/-- When the release's file is not yet present, writing it appends. -/
theorem writeArtifactFile_append {h : List (String × HardhatArtifact)}
    {rel : String} (a : HardhatArtifact) (hnotin : ∀ q ∈ h, q.1 ≠ rel) :
    writeArtifactFile h rel a = h ++ [(rel, a)] := by
  unfold writeArtifactFile
  have hany : h.any (fun q => q.1 == rel) = false := by
    rw [List.any_eq_false]
    intro q hq
    simp [beq_eq_false_iff_ne.mpr (hnotin q hq)]
  rw [hany]
  simp

theorem compareAndGenerateEntries_ok (rn : String) (hrn : isSemverTag rn = true) :
    ∀ (entries : List (String × HardhatArtifact)) (store : DeltaStore) (nf nd : Nat),
      (entries.map Prod.fst).Nodup →
      StoreOk store →
      (∀ p ∈ store.contracts, HistBelowEq p.2 (semverOfTag rn)) →
      (∀ e ∈ entries, ∀ hl, lookupContract store e.1 = some hl →
        HistBelow hl (semverOfTag rn)) →
      ∃ store' nf' nd',
        compareAndGenerateEntries rn entries store nf nd = Except.ok (store', nf', nd') ∧
        StoreOk store' ∧
        (∀ p ∈ store'.contracts, HistBelowEq p.2 (semverOfTag rn)) := by
  intro entries
  induction entries with
  | nil =>
    intro store nf nd _ hok hle _
    exact ⟨store, nf, nd, rfl, hok, hle⟩
  | cons e rest ih =>
    obtain ⟨c, a⟩ := e
    intro store nf nd hnodup hok hle hstrict
    have hnodup2 : c ∉ rest.map Prod.fst ∧ (rest.map Prod.fst).Nodup := by
      rw [List.map_cons] at hnodup
      exact List.nodup_cons.mp hnodup
    have hcnotin : c ∉ rest.map Prod.fst := hnodup2.1
    have hnodup' : (rest.map Prod.fst).Nodup := hnodup2.2
    have hrestne : ∀ e' ∈ rest, e'.1 ≠ c := by
      intro e' he' hec
      exact hcnotin (hec ▸ List.mem_map_of_mem Prod.fst he')
    rcases hEmpty : ((lookupContract store c).getD []).isEmpty with _ | _
    · -- the contract folder already has entries
      have hlk : lookupContract store c = some ((lookupContract store c).getD []) := by
        rcases hl : lookupContract store c with _ | prev
        · rw [hl] at hEmpty; simp [List.isEmpty] at hEmpty
        · rfl
      set prev := (lookupContract store c).getD [] with hprevdef
      have hprevne : prev ≠ [] := by
        intro hp
        rw [hp] at hEmpty
        simp [List.isEmpty] at hEmpty
      have hmem : (c, prev) ∈ store.contracts := getAssoc_some_mem hlk
      obtain ⟨hnames, hasc, hchg⟩ := hok _ hmem
      have hbelow : HistBelow prev (semverOfTag rn) := hstrict (c, a) (by simp) prev hlk
      have hfl := findLastRelease_hist dummyEntry hprevne hnames hasc
      have hfind := find?_getLastD dummyEntry hprevne hasc
      have hbranch : compareAndGenerateEntries rn ((c, a) :: rest) store nf nd =
          (if artifactChanged (prev.getLastD dummyEntry).2 a then
            compareAndGenerateEntries rn rest
              (setContract store c (writeArtifactFile prev rn a)) (nf + 1) nd
          else compareAndGenerateEntries rn rest store nf nd) := by
        simp only [compareAndGenerateEntries, ← hprevdef, hEmpty, Bool.false_eq_true,
          if_false, hfl, hfind]
      rw [hbranch]
      rcases hch : artifactChanged (prev.getLastD dummyEntry).2 a with _ | _
      · rw [if_neg (by simp [hch])]
        exact ih store nf nd hnodup' hok hle
          (fun e' he' hl hlk' => hstrict e' (by simp [he']) hl hlk')
      · rw [if_pos (by simp [hch])]
        have hnotin : ∀ q ∈ prev, q.1 ≠ rn := fun q hq => name_ne_of_lt (hbelow q hq)
        rw [writeArtifactFile_append a hnotin]
        have hlast_eq : ∀ x, x ∈ prev.getLast? → x = prev.getLastD dummyEntry := by
          intro x hx
          rw [List.getLastD_eq_getLast?]
          rcases Option.mem_def.mp hx with h
          rw [h]
          rfl
        have hok' : StoreOk (setContract store c (prev ++ [(rn, a)])) := by
          intro p hp
          rcases mem_setAssoc hp with rfl | hp'
          · refine ⟨?_, ?_, ?_⟩
            · intro q hq
              rcases List.mem_append.mp hq with hq' | hq'
              · exact hnames q hq'
              · rcases List.mem_singleton.mp hq' with rfl
                exact hrn
            · refine List.chain'_append.mpr ⟨hasc, by simp, ?_⟩
              intro x hx y hy
              rcases List.head?_eq_head _ ▸ hy with h
              have hxl := hlast_eq x hx
              have hxmem : x ∈ prev := hxl ▸ getLastD_mem hprevne dummyEntry
              have hya : y = (rn, a) := by simpa using hy.symm
              rw [hya]
              exact hbelow x hxmem
            · refine List.chain'_append.mpr ⟨hchg, by simp, ?_⟩
              intro x hx y hy
              have hxl := hlast_eq x hx
              have hya : y = (rn, a) := by simpa using hy.symm
              rw [hya, hxl]
              exact hch
          · exact hok p hp'
        have hle' : ∀ p ∈ (setContract store c (prev ++ [(rn, a)])).contracts,
            HistBelowEq p.2 (semverOfTag rn) := by
          intro p hp
          rcases mem_setAssoc hp with rfl | hp'
          · intro q hq
            rcases List.mem_append.mp hq with hq' | hq'
            · exact Or.inr (hbelow q hq')
            · rcases List.mem_singleton.mp hq' with rfl
              exact Or.inl rfl
          · exact hle p hp'
        have hstrict' : ∀ e' ∈ rest, ∀ hl,
            lookupContract (setContract store c (prev ++ [(rn, a)])) e'.1 = some hl →
            HistBelow hl (semverOfTag rn) := by
          intro e' he' hl hlk'
          have : lookupContract store e'.1 = some hl := by
            rw [← hlk']
            exact (getAssoc_setAssoc_ne store.contracts c e'.1 _ (hrestne e' he')).symm
          exact hstrict e' (by simp [he']) hl this
        exact ih _ (nf + 1) nd hnodup' hok' hle' hstrict'
    · -- no previous entries: create the folder and copy the artifact
      have hbranch : compareAndGenerateEntries rn ((c, a) :: rest) store nf nd =
          compareAndGenerateEntries rn rest
            (setContract store c (writeArtifactFile [] rn a)) nf (nd + 1) := by
        simp only [compareAndGenerateEntries, hEmpty, if_true]
      have hwrite : writeArtifactFile [] rn a = [(rn, a)] := rfl
      rw [hbranch, hwrite]
      have hok' : StoreOk (setContract store c [(rn, a)]) := by
        intro p hp
        rcases mem_setAssoc hp with rfl | hp'
        · exact ⟨by simp [hrn], by simp, by simp⟩
        · exact hok p hp'
      have hle' : ∀ p ∈ (setContract store c [(rn, a)]).contracts,
          HistBelowEq p.2 (semverOfTag rn) := by
        intro p hp
        rcases mem_setAssoc hp with rfl | hp'
        · intro q hq
          rcases List.mem_singleton.mp hq with rfl
          exact Or.inl rfl
        · exact hle p hp'
      have hstrict' : ∀ e' ∈ rest, ∀ hl,
          lookupContract (setContract store c [(rn, a)]) e'.1 = some hl →
          HistBelow hl (semverOfTag rn) := by
        intro e' he' hl hlk'
        have : lookupContract store e'.1 = some hl := by
          rw [← hlk']
          exact (getAssoc_setAssoc_ne store.contracts c e'.1 _ (hrestne e' he')).symm
        exact hstrict e' (by simp [he']) hl this
      exact ih _ nf (nd + 1) hnodup' hok' hle' hstrict'

theorem initGeneratedFiles_hists (first : ReleaseArtifacts) :
    ∀ p ∈ (initGeneratedFiles first).contracts, ∃ a, p.2 = [(first.name, a)] := by
  have hfold : ∀ (entries : List (String × HardhatArtifact)) (acc : DeltaStore),
      (∀ p ∈ acc.contracts, ∃ a, p.2 = [(first.name, a)]) →
      ∀ p ∈ (entries.foldl
        (fun acc p =>
          setContract acc p.1
            (writeArtifactFile ((lookupContract acc p.1).getD []) first.name p.2))
        acc).contracts, ∃ a, p.2 = [(first.name, a)] := by
    intro entries
    induction entries with
    | nil => intro acc hacc; exact hacc
    | cons e rest ih =>
      intro acc hacc
      rw [List.foldl_cons]
      apply ih
      intro p hp
      rcases mem_setAssoc hp with rfl | hp'
      · rcases hl : lookupContract acc e.1 with _ | h
        · exact ⟨e.2, rfl⟩
        · obtain ⟨a0, ha0⟩ := hacc _ (getAssoc_some_mem hl)
          refine ⟨e.2, ?_⟩
          show writeArtifactFile h first.name e.2 = [(first.name, e.2)]
          have hh : h = [(first.name, a0)] := ha0
          rw [hh]
          simp [writeArtifactFile]
      · exact hacc p hp'
  intro p hp
  exact hfold first.entries { contracts := [], buildInfos := [first.name] }
    (by intro p hp; simp at hp) p hp

theorem generateDeltaLoop_ok :
    ∀ (rels : List ReleaseArtifacts) (store res : DeltaStore),
      (∀ r ∈ rels, isSemverTag r.name = true) →
      (∀ r ∈ rels, (r.entries.map Prod.fst).Nodup) →
      List.Chain' (fun a b => (semverOfTag a.name).lexLt (semverOfTag b.name)) rels →
      StoreOk store →
      (∀ first ∈ rels.head?, ∀ p ∈ store.contracts,
        HistBelow p.2 (semverOfTag first.name)) →
      generateDeltaLoop rels store = Except.ok res → StoreOk res := by
  intro rels
  induction rels with
  | nil =>
    intro store res _ _ _ hok _ hrun
    simp only [generateDeltaLoop] at hrun
    have h := Except.ok.inj hrun
    rw [← h]
    exact hok
  | cons r rest ih =>
    intro store res hvalid hnodup hasc hok hbelow hrun
    have hr : isSemverTag r.name = true := hvalid r (by simp)
    have hbelr : ∀ p ∈ store.contracts, HistBelow p.2 (semverOfTag r.name) :=
      hbelow r (by simp)
    obtain ⟨store', nf', nd', hfold, hok', hle'⟩ :=
      compareAndGenerateEntries_ok r.name hr r.entries
        { store with buildInfos := store.buildInfos ++ [r.name] } 1 0
        (hnodup r (by simp)) hok
        (fun p hp q hq => Or.inr (hbelr p hp q hq))
        (fun e _ hl hlk => hbelr _ (getAssoc_some_mem hlk))
    have hcg : compareAndGenerate r store = Except.ok (store', nf' == 1 && nd' == 0) := by
      simp only [compareAndGenerate, hfold]
    simp only [generateDeltaLoop, hcg] at hrun
    rcases hb : (nf' == 1 && nd' == 0) with _ | _
    · rw [hb] at hrun
      simp only [Bool.false_eq_true, if_false] at hrun
      refine ih store' res (fun x hx => hvalid x (by simp [hx]))
        (fun x hx => hnodup x (by simp [hx]))
        (List.chain'_cons'.mp hasc).2 hok' ?_ hrun
      intro first hfirst p hp q hq
      have hlt : (semverOfTag r.name).lexLt (semverOfTag first.name) := by
        have := (List.chain'_cons'.mp hasc).1
        rcases hh : rest.head? with _ | f0
        · rw [hh] at hfirst; simp at hfirst
        · rw [hh] at hfirst
          have hf : first = f0 := by simpa using hfirst.symm
          rw [hf]
          exact this f0 hh
      exact lexLe_lt_trans (hle' p hp q hq) hlt
    · rw [hb] at hrun
      simp at hrun

theorem generateDeltaOrdered_ok (releases : List ReleaseArtifacts) (res : DeltaStore)
    (hvalid : ∀ r ∈ releases, isSemverTag r.name = true)
    (hnodup : ∀ r ∈ releases, (r.entries.map Prod.fst).Nodup)
    (hasc : List.Chain' (fun a b => (semverOfTag a.name).lexLt (semverOfTag b.name)) releases)
    (hrun : generateDeltaOrdered releases = Except.ok res) : StoreOk res := by
  match releases, hrun with
  | [], hrun => simp [generateDeltaOrdered] at hrun
  | first :: rest, hrun =>
    have hinit : StoreOk (initGeneratedFiles first) := by
      intro p hp
      obtain ⟨a, ha⟩ := initGeneratedFiles_hists first p hp
      rw [ha]
      exact ⟨by simp [hvalid first (by simp)], by simp, by simp⟩
    have hbelow : ∀ f ∈ rest.head?, ∀ p ∈ (initGeneratedFiles first).contracts,
        HistBelow p.2 (semverOfTag f.name) := by
      intro f hf p hp q hq
      obtain ⟨a, ha⟩ := initGeneratedFiles_hists first p hp
      rw [ha] at hq
      rcases List.mem_singleton.mp hq with rfl
      exact (List.chain'_cons'.mp hasc).1 f hf
    exact generateDeltaLoop_ok rest (initGeneratedFiles first) res
      (fun x hx => hvalid x (by simp [hx])) (fun x hx => hnodup x (by simp [hx]))
      (List.chain'_cons'.mp hasc).2 hinit hbelow hrun

theorem filter_semver_map_overwrite {rel : String} (a : HardhatArtifact) :
    ∀ (h : List (String × HardhatArtifact)), isSemverTag rel = false →
      (h.map (fun q => if q.1 == rel then (rel, a) else q)).filter
          (fun q => isSemverTag q.1) =
        h.filter (fun q => isSemverTag q.1) := by
  intro h hrel
  induction h with
  | nil => rfl
  | cons q t ih =>
    by_cases hq : q.1 = rel
    · have h1 : (if (q.1 == rel) = true then (rel, a) else q) = (rel, a) := by simp [hq]
      have hqsem : isSemverTag q.1 = false := by rw [hq]; exact hrel
      rw [List.map_cons, h1, List.filter_cons, List.filter_cons]
      simp only [hrel, hqsem, Bool.false_eq_true, if_false]
      exact ih
    · have h1 : (if (q.1 == rel) = true then (rel, a) else q) = q := by
        simp [beq_eq_false_iff_ne.mpr hq]
      rw [List.map_cons, h1, List.filter_cons, List.filter_cons]
      rcases hb : isSemverTag q.1 with _ | _
      · simp only [Bool.false_eq_true, if_false]
        exact ih
      · simp only [if_true]
        rw [ih]

theorem writeArtifactFile_semverEntries {rel : String} (a : HardhatArtifact)
    (hrel : isSemverTag rel = false) (h : List (String × HardhatArtifact)) :
    semverEntries (writeArtifactFile h rel a) = semverEntries h := by
  unfold writeArtifactFile
  split_ifs with hany
  · exact filter_semver_map_overwrite a h hrel
  · unfold semverEntries
    rw [List.filter_append]
    simp [hrel]

theorem copySnapshotArtifacts_semverEntries (snap : ReleaseArtifacts)
    (hsnap : isSemverTag snap.name = false) (store : DeltaStore) :
    ∀ c, semverEntries ((lookupContract (copySnapshotArtifacts snap store) c).getD []) =
      semverEntries ((lookupContract store c).getD []) := by
  have hfold : ∀ (entries : List (String × HardhatArtifact)) (acc : DeltaStore),
      (∀ c', semverEntries ((lookupContract acc c').getD []) =
        semverEntries ((lookupContract store c').getD [])) →
      ∀ c', semverEntries ((lookupContract
          (entries.foldl (fun acc p =>
            setContract acc p.1
              (writeArtifactFile ((lookupContract acc p.1).getD []) snap.name p.2))
            acc) c').getD []) =
        semverEntries ((lookupContract store c').getD []) := by
    intro entries
    induction entries with
    | nil => intro acc hacc; exact hacc
    | cons e rest ih =>
      intro acc hacc
      rw [List.foldl_cons]
      apply ih
      intro c'
      by_cases hc : c' = e.1
      · rw [hc]
        have hself : lookupContract
            (setContract acc e.1 (writeArtifactFile ((lookupContract acc e.1).getD [])
              snap.name e.2)) e.1 =
            some (writeArtifactFile ((lookupContract acc e.1).getD []) snap.name e.2) :=
          getAssoc_setAssoc_self acc.contracts e.1 _
        rw [hself, Option.getD_some,
          writeArtifactFile_semverEntries e.2 hsnap _]
        exact hacc e.1
      · have hne : lookupContract
            (setContract acc e.1 (writeArtifactFile ((lookupContract acc e.1).getD [])
              snap.name e.2)) c' = lookupContract acc c' :=
          getAssoc_setAssoc_ne acc.contracts e.1 c' _ hc
        rw [hne]
        exact hacc c'
  intro c
  exact hfold snap.entries { store with buildInfos := store.buildInfos ++ [snap.name] }
    (fun c' => rfl) c

theorem snapshotsFold_semverEntries :
    ∀ (snaps : List ReleaseArtifacts) (store : DeltaStore),
      (∀ s ∈ snaps, isSemverTag s.name = false) →
      ∀ c, semverEntries ((lookupContract
          (snaps.foldl (fun acc s => copySnapshotArtifacts s acc) store) c).getD []) =
        semverEntries ((lookupContract store c).getD []) := by
  intro snaps
  induction snaps with
  | nil => intro store _ c; rfl
  | cons s rest ih =>
    intro store hsnap c
    rw [List.foldl_cons]
    rw [ih (copySnapshotArtifacts s store) (fun x hx => hsnap x (by simp [hx])) c]
    exact copySnapshotArtifacts_semverEntries s (hsnap s (by simp)) store c

theorem entriesFold_preserves_unchanged (rn : String) :
    ∀ (entries : List (String × HardhatArtifact)) (store : DeltaStore) (nf nd : Nat)
      (res : DeltaStore × Nat × Nat) (c : String) (prev : List (String × HardhatArtifact)),
      lookupContract store c = some prev → prev ≠ [] →
      (∀ q ∈ prev, isSemverTag q.1 = true) →
      List.Chain' (fun x y => (semverOfTag x.1).lexLt (semverOfTag y.1)) prev →
      (∀ a, (c, a) ∈ entries →
        artifactChanged (prev.getLastD dummyEntry).2 a = false) →
      compareAndGenerateEntries rn entries store nf nd = Except.ok res →
      lookupContract res.1 c = some prev := by
  intro entries
  induction entries with
  | nil =>
    intro store nf nd res c prev hlk _ _ _ _ hrun
    have h := Except.ok.inj hrun
    rw [← h]
    exact hlk
  | cons e rest ih =>
    obtain ⟨c₀, a₀⟩ := e
    intro store nf nd res c prev hlk hne hnames hasc hunch hrun
    by_cases hc : c₀ = c
    · subst hc
      have hpe : prev.isEmpty = false := by
        cases prev with
        | nil => exact absurd rfl hne
        | cons x t => rfl
      have hfl := findLastRelease_hist dummyEntry hne hnames hasc
      have hfind := find?_getLastD dummyEntry hne hasc
      have hch := hunch a₀ (by simp)
      have hbranch : compareAndGenerateEntries rn ((c₀, a₀) :: rest) store nf nd =
          compareAndGenerateEntries rn rest store nf nd := by
        simp only [compareAndGenerateEntries, hlk, Option.getD_some, hpe,
          Bool.false_eq_true, if_false, hfl, hfind, hch]
      rw [hbranch] at hrun
      exact ih store nf nd res c₀ prev hlk hne hnames hasc
        (fun a ha => hunch a (by simp [ha])) hrun
    · have hcne : c ≠ c₀ := fun he => hc he.symm
      have hunch' : ∀ a, (c, a) ∈ rest →
          artifactChanged (prev.getLastD dummyEntry).2 a = false :=
        fun a ha => hunch a (by simp [ha])
      rcases hEmpty : ((lookupContract store c₀).getD []).isEmpty with _ | _
      · simp only [compareAndGenerateEntries, hEmpty, Bool.false_eq_true, if_false] at hrun
        cases hfl : findLastRelease (((lookupContract store c₀).getD []).map Prod.fst) with
        | error e =>
          rw [hfl] at hrun
          simp at hrun
        | ok last =>
          rw [hfl] at hrun
          simp only at hrun
          cases hfind : ((lookupContract store c₀).getD []).find?
              (fun q => q.1 == last.name) with
          | none =>
            rw [hfind] at hrun
            simp at hrun
          | some le =>
            rw [hfind] at hrun
            simp only at hrun
            rcases hch2 : artifactChanged le.2 a₀ with _ | _
            · rw [hch2] at hrun
              simp only [Bool.false_eq_true, if_false] at hrun
              exact ih store nf nd res c prev hlk hne hnames hasc hunch' hrun
            · rw [hch2] at hrun
              simp only [if_true] at hrun
              have hlk' : lookupContract
                  (setContract store c₀
                    (writeArtifactFile ((lookupContract store c₀).getD []) rn a₀)) c =
                  some prev := by
                rw [show lookupContract
                    (setContract store c₀
                      (writeArtifactFile ((lookupContract store c₀).getD []) rn a₀)) c =
                    lookupContract store c from
                  getAssoc_setAssoc_ne store.contracts c₀ c _ hcne]
                exact hlk
              exact ih _ (nf + 1) nd res c prev hlk' hne hnames hasc hunch' hrun
      · simp only [compareAndGenerateEntries, hEmpty, if_true] at hrun
        have hlk' : lookupContract
            (setContract store c₀ (writeArtifactFile [] rn a₀)) c = some prev := by
          rw [show lookupContract
              (setContract store c₀ (writeArtifactFile [] rn a₀)) c =
              lookupContract store c from
            getAssoc_setAssoc_ne store.contracts c₀ c _ hcne]
          exact hlk
        exact ih _ nf (nd + 1) res c prev hlk' hne hnames hasc hunch' hrun

/-- C5: for every delta store produced by a successful regeneration over
strictly ascending releases (with duplicate-free contract names per release,
and snapshots carrying non-semver names), the version-ordered list of stored
entries of every contract contains no two adjacent content-equivalent
entries — consecutive stored entries always differ under the generator's
content comparison; and `compareAndGenerate` stores a new entry for a key
only if its content differs from the last stored entry for that key or the
key has no stored entry yet: a key whose release artifact is equivalent to
the last stored entry keeps its history unchanged. -/
theorem delta_store_dedup_invariant :
    (∀ (releases snapshots : List ReleaseArtifacts) (store : DeltaStore),
      (∀ r ∈ releases, isSemverTag r.name = true) →
      (∀ r ∈ releases, (r.entries.map Prod.fst).Nodup) →
      List.Chain' (fun a b => (semverOfTag a.name).lexLt (semverOfTag b.name)) releases →
      (∀ s ∈ snapshots, isSemverTag s.name = false) →
      generateDeltaRun releases snapshots = Except.ok store →
      ∀ c hist, lookupContract store c = some hist →
        List.Chain' (fun a b => artifactChanged a.2 b.2 = true) (semverEntries hist)) ∧
    (∀ (rel : ReleaseArtifacts) (store : DeltaStore) (out : DeltaStore × Bool)
       (c : String) (prev : List (String × HardhatArtifact)),
      lookupContract store c = some prev → prev ≠ [] →
      (∀ q ∈ prev, isSemverTag q.1 = true) →
      List.Chain' (fun x y => (semverOfTag x.1).lexLt (semverOfTag y.1)) prev →
      (∀ a, (c, a) ∈ rel.entries →
        artifactChanged (prev.getLastD dummyEntry).2 a = false) →
      compareAndGenerate rel store = Except.ok out →
      lookupContract out.1 c = some prev) := by
  constructor
  · intro rels snaps store hvalid hnodup hasc hsnap hrun c hist hlk
    unfold generateDeltaRun at hrun
    cases hord : generateDeltaOrdered rels with
    | error e =>
      rw [hord] at hrun
      simp at hrun
    | ok mid =>
      rw [hord] at hrun
      simp only at hrun
      have hstore := Except.ok.inj hrun
      have hmid := generateDeltaOrdered_ok rels mid hvalid hnodup hasc hord
      have hse := snapshotsFold_semverEntries snaps mid hsnap c
      rw [hstore, hlk, Option.getD_some] at hse
      rw [hse]
      cases hmlk : lookupContract mid c with
      | none => simp [semverEntries]
      | some h₀ =>
        rw [Option.getD_some]
        obtain ⟨hn, _, hcc⟩ := hmid _ (getAssoc_some_mem hmlk)
        have hfe : semverEntries h₀ = h₀ :=
          List.filter_eq_self.mpr (fun q hq => by simp [hn q hq])
        rw [hfe]
        exact hcc
  · intro rel store out c prev hlk hne hnames hasc hunch hcg
    unfold compareAndGenerate at hcg
    dsimp only at hcg
    cases hfold : compareAndGenerateEntries rel.name rel.entries
        { store with buildInfos := store.buildInfos ++ [rel.name] } 1 0 with
    | error e =>
      rw [hfold] at hcg
      simp at hcg
    | ok res =>
      obtain ⟨st', nf', nd'⟩ := res
      rw [hfold] at hcg
      simp only at hcg
      have hout : out.1 = st' := by
        have h := Except.ok.inj hcg
        rw [← h]
      have hpres := entriesFold_preserves_unchanged rel.name rel.entries
        { store with buildInfos := store.buildInfos ++ [rel.name] } 1 0
        (st', nf', nd') c prev hlk hne hnames hasc hunch hfold
      rw [hout]
      exact hpres

/-- Witness for C5 at concrete inputs: two releases with changed bytecode
plus one snapshot, and one release whose artifact repeats the stored one. -/
theorem delta_store_dedup_invariant_witness :
    List.Chain' (fun a b => artifactChanged a.2 b.2 = true)
      (semverEntries [("v1.0.0", ⟨"0xAA", "[]", "rA"⟩),
        ("v1.1.0", ⟨"0xBB", "[]", "rB"⟩), ("snap", ⟨"0xBB", "[]", "rB"⟩)]) ∧
    lookupContract
      ({ contracts := [("Counter", [("v1.0.0", (⟨"0xAA", "[]", "rA"⟩ : HardhatArtifact))])],
         buildInfos := ["v1.0.0", "v1.1.0"] },
        true).1 "Counter" = some [("v1.0.0", ⟨"0xAA", "[]", "rA"⟩)] := by
  constructor
  · exact delta_store_dedup_invariant.1
      [⟨"v1.0.0", [("Counter", ⟨"0xAA", "[]", "rA"⟩)]⟩,
       ⟨"v1.1.0", [("Counter", ⟨"0xBB", "[]", "rB"⟩)]⟩]
      [⟨"snap", [("Counter", ⟨"0xBB", "[]", "rB"⟩)]⟩]
      { contracts := [("Counter",
          [("v1.0.0", ⟨"0xAA", "[]", "rA"⟩), ("v1.1.0", ⟨"0xBB", "[]", "rB"⟩),
           ("snap", ⟨"0xBB", "[]", "rB"⟩)])],
        buildInfos := ["v1.0.0", "v1.1.0", "snap"] }
      (by decide) (by decide) (by exact List.chain'_pair.mpr (by decide)) (by decide) (by rfl)
      "Counter" _ (by rfl)
  · exact delta_store_dedup_invariant.2
      ⟨"v1.1.0", [("Counter", ⟨"0xAA", "[]", "rA"⟩)]⟩
      { contracts := [("Counter", [("v1.0.0", ⟨"0xAA", "[]", "rA"⟩)])],
        buildInfos := ["v1.0.0"] }
      ({ contracts := [("Counter", [("v1.0.0", ⟨"0xAA", "[]", "rA"⟩)])],
         buildInfos := ["v1.0.0", "v1.1.0"] }, true)
      "Counter" [("v1.0.0", ⟨"0xAA", "[]", "rA"⟩)]
      (by rfl) (by simp) (by decide) (List.chain'_singleton _)
      (by
        intro a ha
        have h := List.mem_singleton.mp ha
        have ha2 : a = ⟨"0xAA", "[]", "rA"⟩ := congrArg Prod.snd h
        rw [ha2]
        rfl)
      (by rfl)

theorem enumeration_no_old {listing : List String} {l : List String}
    (hok : generateDeltaEnumeration listing = Except.ok l) :
    "generated-delta-old" ∉ listing := by
  intro h
  have hmem : "generated-delta-old" ∈
      listing.filter (fun r => !reservedDirNames.contains r) :=
    List.mem_filter.mpr ⟨h, by decide⟩
  have hne : (listing.filter (fun r => !reservedDirNames.contains r)).isEmpty = false := by
    cases hl : listing.filter (fun r => !reservedDirNames.contains r) with
    | nil => rw [hl] at hmem; exact absurd hmem (List.not_mem_nil _)
    | cons x xs => rfl
  have hinv : "generated-delta-old" ∈
      (listing.filter (fun r => !reservedDirNames.contains r)).filter
        (fun r => !isSemverTag r) :=
    List.mem_filter.mpr ⟨hmem, by decide⟩
  have hinv_ne : ((listing.filter (fun r => !reservedDirNames.contains r)).filter
      (fun r => !isSemverTag r)).isEmpty = false := by
    cases hl : (listing.filter (fun r => !reservedDirNames.contains r)).filter
        (fun r => !isSemverTag r) with
    | nil => rw [hl] at hinv; exact absurd hinv (List.not_mem_nil _)
    | cons x xs => rfl
  simp only [generateDeltaEnumeration, hne, hinv_ne, Bool.false_eq_true, if_false,
    Bool.not_false, if_true] at hok
  exact Except.noConfusion hok

/-- C2 counterexample: a failure at the `mkdir` creating the fresh target —
part of the claimed atomic step 3, which creates and then populates the fresh
directory, but outside the `try` block whose `catch` performs the rollback —
is **not** rolled back.  Starting from a store present and no backup (a state
that passes the release validation), the rename to the backup name succeeds,
the `mkdir` fails, and the run exits with the store absent and its previous
content stranded under the backup name, not with the store as it was. -/
theorem delta_regen_not_atomic :
    ((runGenerateDeltaFs ⟨some "prev", none⟩ ["v1.0.0"] "new"
        (some FailPoint.atMkdir)).1.gdelta = none) ∧
    (FsState.mk (some "prev") none).gdelta = some "prev" ∧
    ((runGenerateDeltaFs ⟨some "prev", none⟩ ["v1.0.0"] "new"
        (some FailPoint.atMkdir)).1.gdeltaOld = some "prev") := by
  exact ⟨rfl, rfl, rfl⟩

/-- C2 (amended): the release validation preceding the transaction rejects
any listing with a non-semver name, so a run that reaches the transaction
holds no leftover `generated-delta-old` backup.  For every such run, a
failure injected anywhere inside the `try`-guarded populate phase (after the
fresh target's creation) leaves the delta-store directory exactly as it was
before the run and reports failure, and a failure-free run fully replaces the
store with the new version and leaves no backup behind.  A failure at the
`mkdir` creating the fresh target, however, is outside the `try` block and is
not rolled back: the run ends with the store absent and its previous content
under the backup name. -/
theorem delta_regen_rollback (s : FsState) (versionDirs : List String)
    (newContent : String) (l : List String)
    (henum : generateDeltaEnumeration (releasesListing s versionDirs) = Except.ok l) :
    ((runGenerateDeltaFs s versionDirs newContent (some FailPoint.atPopulate)).1.gdelta
        = s.gdelta ∧
     (runGenerateDeltaFs s versionDirs newContent (some FailPoint.atPopulate)).2
        = false) ∧
    ((runGenerateDeltaFs s versionDirs newContent none).1.gdelta = some newContent ∧
     (runGenerateDeltaFs s versionDirs newContent none).2 = true ∧
     (runGenerateDeltaFs s versionDirs newContent none).1.gdeltaOld = none) ∧
    ((runGenerateDeltaFs s versionDirs newContent (some FailPoint.atMkdir)).1.gdelta
        = none ∧
     (runGenerateDeltaFs s versionDirs newContent (some FailPoint.atMkdir)).1.gdeltaOld
        = s.gdelta) := by
  have hno : "generated-delta-old" ∉ releasesListing s versionDirs :=
    enumeration_no_old henum
  rcases s with ⟨gd, go⟩
  have ho : go = none := by
    cases hg : go with
    | none => rfl
    | some o => exact absurd (by simp [releasesListing, hg]) hno
  subst ho
  cases gd with
  | none =>
    refine ⟨⟨?_, ?_⟩, ⟨?_, ?_, ?_⟩, ?_, ?_⟩ <;>
      simp only [runGenerateDeltaFs, henum] <;> rfl
  | some d =>
    refine ⟨⟨?_, ?_⟩, ⟨?_, ?_, ?_⟩, ?_, ?_⟩ <;>
      simp only [runGenerateDeltaFs, henum] <;> rfl

/-- Witness for the amended C2 at concrete inputs: the state with the store
present and no backup passes the release validation, so the theorem applies
to it. -/
theorem delta_regen_rollback_witness :
    generateDeltaEnumeration (releasesListing ⟨some "prev", none⟩ ["v1.0.0"]) =
      Except.ok ["v1.0.0"] ∧
    (((runGenerateDeltaFs ⟨some "prev", none⟩ ["v1.0.0"] "new"
          (some FailPoint.atPopulate)).1.gdelta = some "prev" ∧
      (runGenerateDeltaFs ⟨some "prev", none⟩ ["v1.0.0"] "new"
          (some FailPoint.atPopulate)).2 = false) ∧
     ((runGenerateDeltaFs ⟨some "prev", none⟩ ["v1.0.0"] "new" none).1.gdelta =
          some "new" ∧
      (runGenerateDeltaFs ⟨some "prev", none⟩ ["v1.0.0"] "new" none).2 = true ∧
      (runGenerateDeltaFs ⟨some "prev", none⟩ ["v1.0.0"] "new" none).1.gdeltaOld =
          none) ∧
     ((runGenerateDeltaFs ⟨some "prev", none⟩ ["v1.0.0"] "new"
          (some FailPoint.atMkdir)).1.gdelta = none ∧
      (runGenerateDeltaFs ⟨some "prev", none⟩ ["v1.0.0"] "new"
          (some FailPoint.atMkdir)).1.gdeltaOld = some "prev")) :=
  ⟨rfl, delta_regen_rollback ⟨some "prev", none⟩ ["v1.0.0"] "new" ["v1.0.0"] rfl⟩

/-- C8 counterexample: a compiled-unit directory lacking its `.dbg.json`
debug sidecar, or lacking the artifact JSON named after it, is silently
skipped by `lookForContractArtifact` — the walk completes without any error
and yields no entry for it, rather than failing hard. -/
theorem malformed_artifact_silently_skipped :
    lookForContractArtifact [FsTree.dir "Foo.sol" []] = [] ∧
    lookForContractArtifact
      [FsTree.dir "Bar.sol" [FsTree.file "Bar.dbg.json"]] = [] ∧
    lookForContractArtifact
      [FsTree.dir "Foo.sol" [],
       FsTree.dir "Ok.sol" [FsTree.file "Ok.dbg.json", FsTree.file "Ok.json"]] = ["Ok"] := by
  refine ⟨?_, ?_, ?_⟩ <;> rfl

/-- C8 (amended): a build info with missing required fields is a hard
error — `generateContractHashes` throws on schema-validation failure; but a
compiled-unit directory missing its debug sidecar, or missing the artifact
JSON derived from it, is silently skipped by `lookForContractArtifact`: it
contributes no entry, raises no error, and the walk continues with the
remaining entries. -/
theorem malformed_build_info_hard_error :
    (∀ raw : RawBuildInfo, parseBuildInfo raw = none →
      generateContractHashes raw = Except.error "Invalid build info file") ∧
    (∀ (n : String) (children rest : List FsTree),
      strEndsWith n ".sol" = true →
      (childNames children).find? (fun f => strEndsWith f ".dbg.json") = none →
      lookForContractArtifact (FsTree.dir n children :: rest) =
        lookForContractArtifact rest) ∧
    (∀ (n : String) (children rest : List FsTree) (dbgFile : String),
      strEndsWith n ".sol" = true →
      (childNames children).find? (fun f => strEndsWith f ".dbg.json") = some dbgFile →
      (childNames children).contains (dropRightStr dbgFile 9 ++ ".json") = false →
      lookForContractArtifact (FsTree.dir n children :: rest) =
        lookForContractArtifact rest) := by
  refine ⟨?_, ?_, ?_⟩
  · intro raw hparse
    simp only [generateContractHashes, hparse]
  · intro n children rest hsol hdbg
    simp only [lookForContractArtifact, lookOne, hsol, if_true, hdbg, List.nil_append]
  · intro n children rest dbgFile hsol hdbg hjson
    simp only [lookForContractArtifact, lookOne, hsol, if_true, hdbg, hjson,
      Bool.false_eq_true, if_false, List.nil_append]

/-- Witness for the amended C8 at concrete inputs. -/
theorem malformed_build_info_hard_error_witness :
    generateContractHashes ⟨none⟩ = Except.error "Invalid build info file" ∧
    lookForContractArtifact (FsTree.dir "Foo.sol" [] ::
      [FsTree.dir "Ok.sol" [FsTree.file "Ok.dbg.json", FsTree.file "Ok.json"]]) =
      lookForContractArtifact
        [FsTree.dir "Ok.sol" [FsTree.file "Ok.dbg.json", FsTree.file "Ok.json"]] ∧
    lookForContractArtifact (FsTree.dir "Bar.sol" [FsTree.file "Bar.dbg.json"] :: []) =
      lookForContractArtifact [] :=
  ⟨malformed_build_info_hard_error.1 ⟨none⟩ rfl,
   malformed_build_info_hard_error.2.1 "Foo.sol" [] _ (by rfl) (by rfl),
   malformed_build_info_hard_error.2.2 "Bar.sol" [FsTree.file "Bar.dbg.json"] []
     "Bar.dbg.json" (by rfl) (by rfl) (by rfl)⟩

theorem addedEntries_spec :
    ∀ (m : List (String × List Char)) (ds : List DiffEntry),
      addedEntries m = Except.ok ds →
      ds.length = m.length ∧
      (∀ e ∈ ds, e.status = DiffStatus.added) ∧
      (∀ kh ∈ m, ∃ pn, parseKey kh.1 = Except.ok pn ∧
        DiffEntry.mk pn.1 pn.2 DiffStatus.added ∈ ds) := by
  intro m
  induction m with
  | nil =>
    intro ds hrun
    have h := Except.ok.inj hrun
    rw [← h]
    exact ⟨rfl, by simp, by simp⟩
  | cons kh rest ih =>
    intro ds hrun
    simp only [addedEntries] at hrun
    cases hp : parseKey kh.1 with
    | error e => rw [hp] at hrun; simp at hrun
    | ok pn =>
      rw [hp] at hrun
      simp only at hrun
      cases hr : addedEntries rest with
      | error e => rw [hr] at hrun; simp at hrun
      | ok ds' =>
        rw [hr] at hrun
        simp only at hrun
        have hds := Except.ok.inj hrun
        obtain ⟨hlen, hstat, hcov⟩ := ih ds' hr
        rw [← hds]
        refine ⟨by simp [hlen], ?_, ?_⟩
        · intro e he
          rcases List.mem_cons.mp he with rfl | he'
          · rfl
          · exact hstat e he'
        · intro q hq
          rcases List.mem_cons.mp hq with rfl | hq'
          · exact ⟨pn, hp, by simp⟩
          · obtain ⟨pn', hp', hmem⟩ := hcov q hq'
            exact ⟨pn', hp', by simp [hmem]⟩

theorem diffFreshLoop_spec (mL : List (String × List Char)) :
    ∀ (m : List (String × List Char)) (ds : List DiffEntry),
      diffFreshLoop mL m = Except.ok ds →
      (∀ e ∈ ds,
        ∃ k h, (k, h) ∈ m ∧ parseKey k = Except.ok (e.path, e.name) ∧
          ((e.status = DiffStatus.added ∧ getAssoc mL k = none) ∨
           (e.status = DiffStatus.changed ∧ ∃ lh, getAssoc mL k = some lh ∧ lh ≠ h))) ∧
      (∀ kh ∈ m, ∀ pn, parseKey kh.1 = Except.ok pn →
        (getAssoc mL kh.1 = none →
          DiffEntry.mk pn.1 pn.2 DiffStatus.added ∈ ds) ∧
        (∀ lh, getAssoc mL kh.1 = some lh → lh ≠ kh.2 →
          DiffEntry.mk pn.1 pn.2 DiffStatus.changed ∈ ds)) ∧
      ds.length = m.countP (fun kh =>
        match getAssoc mL kh.1 with
        | none => true
        | some lh => lh != kh.2) := by
  intro m
  induction m with
  | nil =>
    intro ds hrun
    have h := Except.ok.inj hrun
    rw [← h]
    exact ⟨by simp, by simp, by simp⟩
  | cons kh rest ih =>
    intro ds hrun
    simp only [diffFreshLoop] at hrun
    cases hp : parseKey kh.1 with
    | error e => rw [hp] at hrun; simp at hrun
    | ok pn =>
      rw [hp] at hrun
      simp only at hrun
      cases hg : getAssoc mL kh.1 with
      | none =>
        rw [hg] at hrun
        simp only at hrun
        cases hr : diffFreshLoop mL rest with
        | error e => rw [hr] at hrun; simp at hrun
        | ok ds' =>
          rw [hr] at hrun
          simp only at hrun
          have hds := Except.ok.inj hrun
          obtain ⟨hsound, hcompl, hlen⟩ := ih ds' hr
          rw [← hds]
          refine ⟨?_, ?_, ?_⟩
          · intro e he
            rcases List.mem_cons.mp he with rfl | he'
            · exact ⟨kh.1, kh.2, by simp, hp, Or.inl ⟨rfl, hg⟩⟩
            · obtain ⟨k, h, hm, hpk, hcase⟩ := hsound e he'
              exact ⟨k, h, by simp [hm], hpk, hcase⟩
          · intro q hq pn' hpn'
            rcases List.mem_cons.mp hq with rfl | hq'
            · rw [hp] at hpn'
              have hpe := Except.ok.inj hpn'
              rw [← hpe]
              exact ⟨fun _ => by simp, fun lh hlh => by rw [hg] at hlh; simp at hlh⟩
            · obtain ⟨h1, h2⟩ := hcompl q hq' pn' hpn'
              exact ⟨fun hn => by simp [h1 hn], fun lh hlh hne => by simp [h2 lh hlh hne]⟩
          · rw [List.countP_cons]
            simp [hg, hlen]
      | some lh =>
        rw [hg] at hrun
        simp only at hrun
        rcases hne : (lh != kh.2) with _ | _
        · have heq : lh = kh.2 := by simpa using hne
          rw [if_neg (by simp [heq])] at hrun
          obtain ⟨hsound, hcompl, hlen⟩ := ih ds hrun
          refine ⟨?_, ?_, ?_⟩
          · intro e he
            obtain ⟨k, h, hm, hpk, hcase⟩ := hsound e he
            exact ⟨k, h, by simp [hm], hpk, hcase⟩
          · intro q hq pn' hpn'
            rcases List.mem_cons.mp hq with rfl | hq'
            · refine ⟨fun hn => ?_, fun lh' hlh' hne' => ?_⟩
              · rw [hg] at hn; simp at hn
              · rw [hg] at hlh'
                have : lh = lh' := Option.some.inj hlh'
                rw [← this] at hne'
                exact absurd heq hne'
            · exact hcompl q hq' pn' hpn'
          · rw [List.countP_cons]
            simp [hg, hne, hlen]
        · rw [if_pos (by simpa using hne)] at hrun
          cases hr : diffFreshLoop mL rest with
          | error e => rw [hr] at hrun; simp at hrun
          | ok ds' =>
            rw [hr] at hrun
            simp only at hrun
            have hds := Except.ok.inj hrun
            obtain ⟨hsound, hcompl, hlen⟩ := ih ds' hr
            rw [← hds]
            refine ⟨?_, ?_, ?_⟩
            · intro e he
              rcases List.mem_cons.mp he with rfl | he'
              · exact ⟨kh.1, kh.2, by simp, hp,
                  Or.inr ⟨rfl, lh, hg, by simpa using hne⟩⟩
              · obtain ⟨k, h, hm, hpk, hcase⟩ := hsound e he'
                exact ⟨k, h, by simp [hm], hpk, hcase⟩
            · intro q hq pn' hpn'
              rcases List.mem_cons.mp hq with rfl | hq'
              · rw [hp] at hpn'
                have hpe := Except.ok.inj hpn'
                rw [← hpe]
                exact ⟨fun hn => by rw [hg] at hn; simp at hn,
                  fun lh' hlh' hne' => by simp⟩
              · obtain ⟨h1, h2⟩ := hcompl q hq' pn' hpn'
                exact ⟨fun hn => by simp [h1 hn],
                  fun lh' hlh' hne' => by simp [h2 lh' hlh' hne']⟩
            · rw [List.countP_cons]
              simp [hg, hne, hlen]

theorem diffRemovedLoop_spec (mF : List (String × List Char)) :
    ∀ (m : List (String × List Char)) (ds : List DiffEntry),
      diffRemovedLoop mF m = Except.ok ds →
      (∀ e ∈ ds, e.status = DiffStatus.removed ∧
        ∃ k h, (k, h) ∈ m ∧ parseKey k = Except.ok (e.path, e.name) ∧
          getAssoc mF k = none) ∧
      (∀ kh ∈ m, getAssoc mF kh.1 = none → ∀ pn, parseKey kh.1 = Except.ok pn →
        DiffEntry.mk pn.1 pn.2 DiffStatus.removed ∈ ds) ∧
      ds.length = m.countP (fun kh => (getAssoc mF kh.1).isNone) := by
  intro m
  induction m with
  | nil =>
    intro ds hrun
    have h := Except.ok.inj hrun
    rw [← h]
    exact ⟨by simp, by simp, by simp⟩
  | cons kh rest ih =>
    intro ds hrun
    simp only [diffRemovedLoop] at hrun
    rcases hg : (getAssoc mF kh.1).isSome with _ | _
    · rw [hg] at hrun
      simp only [Bool.false_eq_true, if_false] at hrun
      cases hp : parseKey kh.1 with
      | error e => rw [hp] at hrun; simp at hrun
      | ok pn =>
        rw [hp] at hrun
        simp only at hrun
        cases hr : diffRemovedLoop mF rest with
        | error e => rw [hr] at hrun; simp at hrun
        | ok ds' =>
          rw [hr] at hrun
          simp only at hrun
          have hds := Except.ok.inj hrun
          obtain ⟨hsound, hcompl, hlen⟩ := ih ds' hr
          rw [← hds]
          have hgn : getAssoc mF kh.1 = none := by
            rcases hx : getAssoc mF kh.1 with _ | v
            · rfl
            · rw [hx] at hg; simp at hg
          refine ⟨?_, ?_, ?_⟩
          · intro e he
            rcases List.mem_cons.mp he with rfl | he'
            · exact ⟨rfl, kh.1, kh.2, by simp, hp, hgn⟩
            · obtain ⟨hst, k, h, hm, hpk, hgk⟩ := hsound e he'
              exact ⟨hst, k, h, by simp [hm], hpk, hgk⟩
          · intro q hq hqn pn' hpn'
            rcases List.mem_cons.mp hq with rfl | hq'
            · rw [hp] at hpn'
              have hpe := Except.ok.inj hpn'
              rw [← hpe]
              simp
            · simp [hcompl q hq' hqn pn' hpn']
          · rw [List.countP_cons]
            simp [hgn, hlen]
    · rw [hg] at hrun
      simp only [if_true] at hrun
      obtain ⟨hsound, hcompl, hlen⟩ := ih ds hrun
      have hgs : ∃ v, getAssoc mF kh.1 = some v := Option.isSome_iff_exists.mp hg
      refine ⟨?_, ?_, ?_⟩
      · intro e he
        obtain ⟨hst, k, h, hm, hpk, hgk⟩ := hsound e he
        exact ⟨hst, k, h, by simp [hm], hpk, hgk⟩
      · intro q hq hqn pn' hpn'
        rcases List.mem_cons.mp hq with rfl | hq'
        · obtain ⟨v, hv⟩ := hgs
          rw [hv] at hqn
          simp at hqn
        · exact hcompl q hq' hqn pn' hpn'
      · rw [List.countP_cons]
        obtain ⟨v, hv⟩ := hgs
        simp [hv, hlen]

/-- C7: `diff-with-latest` classification.  With no latest release, the
report has exactly one `added` entry per staging artifact and nothing else.
With a latest release: every entry of the report is justified — an `added`
entry comes from a key in the staging map absent from the latest map, a
`changed` entry from a key in both maps with differing hashes, a `removed`
entry from a key only in the latest map; conversely every such key produces
its entry; and the report's length is exactly the number of
added-or-changed staging keys plus the number of removed latest keys, so a
key present in both maps with equal hash contributes no entry.  The
operation is read-only: it consumes the two stores and returns only the
report. -/
theorem diff_with_latest_classification :
    (∀ (raw : RawBuildInfo) (m : List (String × List Char)) (ds : List DiffEntry),
      generateContractHashes raw = Except.ok m →
      generateDiffWithLatest raw none = Except.ok ds →
      ds.length = m.length ∧
      (∀ e ∈ ds, e.status = DiffStatus.added) ∧
      (∀ kh ∈ m, ∃ pn, parseKey kh.1 = Except.ok pn ∧
        DiffEntry.mk pn.1 pn.2 DiffStatus.added ∈ ds)) ∧
    (∀ (rawF rawL : RawBuildInfo) (mF mL : List (String × List Char))
       (ds : List DiffEntry),
      generateContractHashes rawF = Except.ok mF →
      generateContractHashes rawL = Except.ok mL →
      generateDiffWithLatest rawF (some rawL) = Except.ok ds →
      (∀ e ∈ ds,
        (e.status = DiffStatus.added →
          ∃ k h, (k, h) ∈ mF ∧ parseKey k = Except.ok (e.path, e.name) ∧
            getAssoc mL k = none) ∧
        (e.status = DiffStatus.changed →
          ∃ k h lh, (k, h) ∈ mF ∧ parseKey k = Except.ok (e.path, e.name) ∧
            getAssoc mL k = some lh ∧ lh ≠ h) ∧
        (e.status = DiffStatus.removed →
          ∃ k h, (k, h) ∈ mL ∧ parseKey k = Except.ok (e.path, e.name) ∧
            getAssoc mF k = none)) ∧
      (∀ kh ∈ mF, ∀ pn, parseKey kh.1 = Except.ok pn →
        (getAssoc mL kh.1 = none → DiffEntry.mk pn.1 pn.2 DiffStatus.added ∈ ds) ∧
        (∀ lh, getAssoc mL kh.1 = some lh → lh ≠ kh.2 →
          DiffEntry.mk pn.1 pn.2 DiffStatus.changed ∈ ds)) ∧
      (∀ kh ∈ mL, getAssoc mF kh.1 = none → ∀ pn, parseKey kh.1 = Except.ok pn →
        DiffEntry.mk pn.1 pn.2 DiffStatus.removed ∈ ds) ∧
      ds.length =
        mF.countP (fun kh =>
          match getAssoc mL kh.1 with
          | none => true
          | some lh => lh != kh.2) +
        mL.countP (fun kh => (getAssoc mF kh.1).isNone)) := by
  constructor
  · intro raw m ds hgch hrun
    simp only [generateDiffWithLatest, hgch] at hrun
    exact addedEntries_spec m ds hrun
  · intro rawF rawL mF mL ds hgchF hgchL hrun
    simp only [generateDiffWithLatest, hgchF, hgchL] at hrun
    cases h1 : diffFreshLoop mL mF with
    | error e => rw [h1] at hrun; simp at hrun
    | ok part1 =>
      rw [h1] at hrun
      simp only at hrun
      cases h2 : diffRemovedLoop mF mL with
      | error e => rw [h2] at hrun; simp at hrun
      | ok part2 =>
        rw [h2] at hrun
        simp only at hrun
        have hds := Except.ok.inj hrun
        obtain ⟨hsound1, hcompl1, hlen1⟩ := diffFreshLoop_spec mL mF part1 h1
        obtain ⟨hsound2, hcompl2, hlen2⟩ := diffRemovedLoop_spec mF mL part2 h2
        rw [← hds]
        refine ⟨?_, ?_, ?_, ?_⟩
        · intro e he
          rcases List.mem_append.mp he with he' | he'
          · obtain ⟨k, h, hm, hpk, hcase⟩ := hsound1 e he'
            rcases hcase with ⟨hst, hg⟩ | ⟨hst, lh, hg, hne⟩
            · refine ⟨fun _ => ⟨k, h, hm, hpk, hg⟩, fun hc => ?_, fun hc => ?_⟩
              · rw [hst] at hc; exact absurd hc (by simp)
              · rw [hst] at hc; exact absurd hc (by simp)
            · refine ⟨fun hc => ?_, fun _ => ⟨k, h, lh, hm, hpk, hg, hne⟩, fun hc => ?_⟩
              · rw [hst] at hc; exact absurd hc (by simp)
              · rw [hst] at hc; exact absurd hc (by simp)
          · obtain ⟨hst, k, h, hm, hpk, hg⟩ := hsound2 e he'
            refine ⟨fun hc => ?_, fun hc => ?_, fun _ => ⟨k, h, hm, hpk, hg⟩⟩
            · rw [hst] at hc; exact absurd hc (by simp)
            · rw [hst] at hc; exact absurd hc (by simp)
        · intro kh hkh pn hpn
          obtain ⟨ha, hc⟩ := hcompl1 kh hkh pn hpn
          exact ⟨fun hn => List.mem_append_left _ (ha hn),
            fun lh hlh hne => List.mem_append_left _ (hc lh hlh hne)⟩
        · intro kh hkh hn pn hpn
          exact List.mem_append_right _ (hcompl2 kh hkh hn pn hpn)
        · rw [List.length_append, hlen1, hlen2]

/-- Witness for C7 at concrete inputs: a fresh set with one contract against
no latest release, and the same set against an identical latest release
(equal hashes, so the report is empty). -/
theorem diff_with_latest_classification_witness :
    (([(⟨"src/A.sol", "A", DiffStatus.added⟩ : DiffEntry)].length =
        [(formKey "src/A.sol" "A", hashContract ⟨[], "0xAA", "mA"⟩)].length) ∧
      (∀ e ∈ [(⟨"src/A.sol", "A", DiffStatus.added⟩ : DiffEntry)],
        e.status = DiffStatus.added) ∧
      (∀ kh ∈ [(formKey "src/A.sol" "A", hashContract ⟨[], "0xAA", "mA"⟩)],
        ∃ pn, parseKey kh.1 = Except.ok pn ∧
          DiffEntry.mk pn.1 pn.2 DiffStatus.added ∈
            [(⟨"src/A.sol", "A", DiffStatus.added⟩ : DiffEntry)])) ∧
    (([] : List DiffEntry).length =
      [(formKey "src/A.sol" "A", hashContract ⟨[], "0xAA", "mA"⟩)].countP (fun kh =>
        match getAssoc [(formKey "src/A.sol" "A", hashContract ⟨[], "0xAA", "mA"⟩)] kh.1 with
        | none => true
        | some lh => lh != kh.2) +
      [(formKey "src/A.sol" "A", hashContract ⟨[], "0xAA", "mA"⟩)].countP (fun kh =>
        (getAssoc [(formKey "src/A.sol" "A", hashContract ⟨[], "0xAA", "mA"⟩)] kh.1).isNone)) :=
  ⟨(diff_with_latest_classification.1
      ⟨some [("src/A.sol", [("A", ⟨some [], some "0xAA", some "mA"⟩)])]⟩
      [(formKey "src/A.sol" "A", hashContract ⟨[], "0xAA", "mA"⟩)]
      [⟨"src/A.sol", "A", DiffStatus.added⟩] (by rfl) (by rfl)),
   (diff_with_latest_classification.2
      ⟨some [("src/A.sol", [("A", ⟨some [], some "0xAA", some "mA"⟩)])]⟩
      ⟨some [("src/A.sol", [("A", ⟨some [], some "0xAA", some "mA"⟩)])]⟩
      [(formKey "src/A.sol" "A", hashContract ⟨[], "0xAA", "mA"⟩)]
      [(formKey "src/A.sol" "A", hashContract ⟨[], "0xAA", "mA"⟩)]
      [] (by rfl) (by rfl) (by rfl)).2.2.2⟩

end SCRelease
